import Mathlib

/-!
A verification development for the notes-mcp repository.

The storage layer (`src/storage.py`), the lexical index (`src/search.py`) and the
relevant server entry points (`src/server.py`) are shallowly embedded here.
Python strings are modelled as lists of characters (`Str`); the filesystem under
the storage base directory is modelled as an explicit state (`FS`) holding the
project directories and the note files; `datetime.now()` is modelled by passing
the timestamp string (the value of `datetime.now().isoformat()`) as an explicit
argument to the operations that use it.
-/

namespace NotesMCP

/-- Python strings are modelled as lists of characters. -/
abbrev Str := List Char

/-- Convert a Lean string literal to the model's string type. -/
def chars (s : String) : Str := s.toList

/-- Boolean test that `p` is an initial segment of `s` (Python `str.startswith`). -/
def isPre : Str → Str → Bool
  | [], _ => true
  | _ :: _, [] => false
  | a :: as, b :: bs => a == b && isPre as bs

/-- Boolean test that `p` is a final segment of `s` (Python `str.endswith`). -/
def isSuf (p s : Str) : Bool := isPre p.reverse s.reverse

/-- Boolean test that `needle` occurs contiguously inside `hay`
(Python `needle in hay` on strings). -/
def isSub (needle : Str) : Str → Bool
  | [] => needle.isEmpty
  | c :: t => isPre needle (c :: t) || isSub needle t

/-- Lexicographic comparison of strings by code point, Python's `<` on `str`. -/
def strLt : Str → Str → Bool
  | [], [] => false
  | [], _ :: _ => true
  | _ :: _, [] => false
  | a :: as, b :: bs => if a < b then true else if b < a then false else strLt as bs

/-- Characters kept by the sanitizer in `_get_project_dir` / `_generate_filename`:
`c.isalnum() or c in (" ", "-", "_")`. -/
def keepChar (c : Char) : Bool := c.isAlphanum || c == ' ' || c == '-' || c == '_'

/-- Python `str.strip()`; after `keepChar` filtering the only whitespace left is `' '`. -/
def stripSpaces (s : Str) : Str :=
  ((s.dropWhile (· == ' ')).reverse.dropWhile (· == ' ')).reverse

/-- Python `str.replace(" ", "_")`, character by character. -/
def spaceToUnder (c : Char) : Char := if c == ' ' then '_' else c

/-- Python `str.replace("_", " ")`, character by character. -/
def underToSpace (c : Char) : Char := if c == '_' then ' ' else c

/-- Python `str.replace(":", "-")`, character by character. -/
def colonToHyphen (c : Char) : Char := if c == ':' then '-' else c

/-- Python `str.replace("-", ":")`, character by character. -/
def hyphenToColon (c : Char) : Char := if c == '-' then ':' else c

/-- The sanitization applied to project names and titles in `storage.py`:
keep alphanumerics, spaces, hyphens and underscores, strip, then replace
spaces with underscores. -/
def sanitize (s : Str) : Str :=
  (stripSpaces (s.filter keepChar)).map spaceToUnder

/-- The encoding `timestamp.replace(":", "-")`: the filesystem-safe encoding of a timestamp. -/
def encodeTs (s : Str) : Str := s.map colonToHyphen

/-- The decoding `timestamp.replace("-", ":")`: the decoding applied when reporting a
timestamp read back from a filename. -/
def decodeTs (s : Str) : Str := s.map hyphenToColon

/-- Split a string around the LAST occurrence of `sep`, returning the parts
before and after it; `none` when `sep` does not occur.  This is the common core
of Python's `s.rsplit(sep, 1)` (two parts iff `some`) and `s.split(sep)[-1]`. -/
def rsplitChar (sep : Char) : Str → Option (Str × Str)
  | [] => none
  | c :: t =>
    match rsplitChar sep t with
    | some (b, a) => some (c :: b, a)
    | none => if c == sep then some ([], t) else none

/-- Python `s.split("_")[-1]`: the segment after the last underscore
(the whole string when there is none). -/
def afterLastUnder (s : Str) : Str :=
  match rsplitChar '_' s with
  | some (_, a) => a
  | none => s

/-- Python `pathlib.PurePath.stem`: the file name without its last extension.  The
extension is `name[i:]` for `i` the position of the last dot, provided
`0 < i < len(name) - 1`; otherwise the stem is the whole name. -/
def stem (name : Str) : Str :=
  match rsplitChar '.' name with
  | some (b, a) => if b ≠ [] ∧ a ≠ [] then b else name
  | none => name

/-- The literal `".md"` extension. -/
def mdExt : Str := chars ".md"

/-- One file in the storage tree: the sanitized project directory it lives in,
its file name and its content. -/
structure FSFile where
  dir : Str
  name : Str
  content : Str
deriving DecidableEq, Repr

/-- The filesystem state under the storage base directory: the list of project
directories and the list of note files.  List order models the (arbitrary but
fixed) directory-iteration order of the real filesystem. -/
structure FS where
  dirs : List Str
  files : List FSFile
deriving DecidableEq, Repr

/-- A filesystem path below the base directory, as the pair
(project directory name, file name); Python's `str(filepath)` is the base
directory joined with these two components. -/
abbrev FPath := Str × Str

/-- Python `Path.mkdir(exist_ok=True)` for a project directory. -/
def mkdirIfAbsent (fs : FS) (d : Str) : FS :=
  if fs.dirs.contains d then fs else { fs with dirs := fs.dirs ++ [d] }

/-- Source `NotesStorage._get_project_dir`: sanitize the project name, CREATE the
directory if absent (`mkdir(exist_ok=True)`), return it.  Note the creation
side effect: the returned state may differ from the input state. -/
def get_project_dir (fs : FS) (project : Str) : Str × FS :=
  let d := sanitize project
  (d, mkdirIfAbsent fs d)

/-- Source `NotesStorage._generate_filename` with `timestamp=None`, the only call mode
used by `store_note`; `now` is the value of `datetime.now().isoformat()`. -/
def generate_filename (title : Str) (now : Str) : Str :=
  sanitize title ++ ['_'] ++ encodeTs now ++ mdExt

/-- Python `open(filepath, "w")` + write: truncate the existing file or create a new one. -/
def writeFile (fs : FS) (d name content : Str) : FS :=
  if fs.files.any (fun f => f.dir == d && f.name == name) then
    { fs with
      files := fs.files.map (fun f =>
        if f.dir == d && f.name == name then { f with content := content } else f) }
  else
    { fs with files := fs.files ++ [⟨d, name, content⟩] }

/-- Source `NotesStorage.store_note`: ensure the project directory, generate the
timestamped filename, write the content; returns the path of the new file and
the new state. -/
def store_note (fs : FS) (project title content : Str) (now : Str) : FPath × FS :=
  let d := (get_project_dir fs project).1
  let fs₁ := (get_project_dir fs project).2
  let fn := generate_filename title now
  ((d, fn), writeFile fs₁ d fn content)

/-- The glob `project_dir.glob(f"{safe_title}_*.md")`: the files of directory `d` whose
name is `safeTitle` + `"_"` + anything + `".md"`, in directory order. -/
def matchesNote (safeTitle name : Str) : Bool :=
  isPre (safeTitle ++ ['_']) name && isSuf mdExt name
    && safeTitle.length + 4 ≤ name.length

/-- The glob over the note's version files inside the project directory. -/
def globNote (fs : FS) (d safeTitle : Str) : List FSFile :=
  fs.files.filter (fun f => f.dir == d && matchesNote safeTitle f.name)

/-- The glob `project_dir.glob("*.md")`: all markdown files of a directory. -/
def globMd (fs : FS) (d : Str) : List FSFile :=
  fs.files.filter (fun f => f.dir == d && isSuf mdExt f.name)

/-- One step of a stable descending insertion by string key: the new element
goes before the first strictly-smaller key. -/
def insertDescBy {α : Type} (key : α → Str) (x : α) : List α → List α
  | [] => [x]
  | y :: ys => if strLt (key y) (key x) then x :: y :: ys else y :: insertDescBy key x ys

/-- Python `sorted(files, reverse=True)` on the files of one directory, compared by
file name (all compared paths share the directory part). -/
def sortDescBy {α : Type} (key : α → Str) : List α → List α
  | [] => []
  | x :: xs => insertDescBy key x (sortDescBy key xs)

/-- The expression `target_file.stem.split("_")[-1].replace("-", ":")`: the timestamp reported
for a version file. -/
def extractTimestamp (name : Str) : Str :=
  decodeTs (afterLastUnder (stem name))

/-- Source `NotesStorage.retrieve_note`.  The error value models `FileNotFoundError`
(the `NotFound` signal); on success the result is `(content, timestamp)`.
Note that the project directory is created if absent (via `_get_project_dir`),
that an empty `version` string is falsy in Python (`if version:`) and selects
the latest version, and that a requested version is matched by SUBSTRING
(`version_safe in v.name`) against the reverse-sorted file names. -/
def retrieve_note (fs : FS) (project title : Str) (version : Option Str) :
    Except Unit (Str × Str) × FS :=
  let d := (get_project_dir fs project).1
  let fs₁ := (get_project_dir fs project).2
  let safeTitle := sanitize title
  let versions := sortDescBy (fun f => f.name) (globNote fs₁ d safeTitle)
  (match versions, version with
   | [], _ => Except.error ()
   | _ :: _, some (c :: rest) =>
     let verSafe := encodeTs (c :: rest)
     (match versions.find? (fun f => isSub verSafe f.name) with
      | some f => Except.ok (f.content, extractTimestamp f.name)
      | none => Except.error ())
   | v₀ :: _, _ => Except.ok (v₀.content, extractTimestamp v₀.name),
   fs₁)

/-- Ascending stable insertion by string key. -/
def insertAscBy {α : Type} (key : α → Str) (x : α) : List α → List α
  | [] => [x]
  | y :: ys => if strLt (key x) (key y) then x :: y :: ys else y :: insertAscBy key x ys

/-- Python `sorted(...)` ascending by string key. -/
def sortAscBy {α : Type} (key : α → Str) : List α → List α
  | [] => []
  | x :: xs => insertAscBy key x (sortAscBy key xs)

/-- Source `NotesStorage.list_projects`: directory names with underscores shown as
spaces, sorted.  No state is read back: `iterdir` performs no writes. -/
def list_projects (fs : FS) : List Str :=
  sortAscBy id (fs.dirs.map (fun d => d.map underToSpace))

/-- Parse a version-file stem into `(title, timestamp)` as `list_notes` and
`get_all_notes` do: `rsplit("_", 1)` (skipping the file when there is no
underscore), underscores of the title shown as spaces, hyphens of the
timestamp shown as colons. -/
def parseStem (s : Str) : Option (Str × Str) :=
  match rsplitChar '_' s with
  | some (b, a) => some (b.map underToSpace, decodeTs a)
  | none => none

/-- The in-place max-keeping update of `notes_map` in `list_notes`:
`if title not in notes_map or timestamp > notes_map[title]`. -/
def notesMapInsert (m : List (Str × Str)) (title ts : Str) : List (Str × Str) :=
  match m with
  | [] => [(title, ts)]
  | (t, v) :: rest =>
    if t == title then
      (if strLt v ts then (t, ts) :: rest else (t, v) :: rest)
    else (t, v) :: notesMapInsert rest title ts

/-- Source `NotesStorage.list_notes`: per-title latest timestamp in a project,
returned sorted by title.  The project directory is created if absent. -/
def list_notes (fs : FS) (project : Str) : List (Str × Str) × FS :=
  let d := (get_project_dir fs project).1
  let fs₁ := (get_project_dir fs project).2
  let m := (globMd fs₁ d).foldl (fun m f =>
    match parseStem (stem f.name) with
    | some (title, ts) => notesMapInsert m title ts
    | none => m) []
  (sortAscBy (fun p => p.1) m, fs₁)

/-- One record of `NotesStorage.get_all_notes`. -/
structure NoteRef where
  project : Str
  title : Str
  path : FPath
  timestamp : Str
deriving DecidableEq, Repr

/-- Source `NotesStorage.get_all_notes`: every parseable `.md` file of every project
directory, in directory-then-file iteration order. -/
def get_all_notes (fs : FS) : List NoteRef :=
  (fs.dirs.map (fun d =>
    (globMd fs d).filterMap (fun f =>
      match parseStem (stem f.name) with
      | some (title, ts) => some ⟨d.map underToSpace, title, (d, f.name), ts⟩
      | none => none))).flatten

/-- Source `NotesStorage.read_note_content`: look the path up and return its content. -/
def read_note_content (fs : FS) (p : FPath) : Option Str :=
  (fs.files.find? (fun f => f.dir == p.1 && f.name == p.2)).map (fun f => f.content)

/-- One value of the in-memory lexical index:
`{"content": ..., "timestamp": ..., "path": ...}`. -/
structure IndexEntry where
  content : Str
  timestamp : Str
  path : FPath
deriving DecidableEq, Repr

/-- The lexical index `self.index`: `project -> title -> entry`, modelled as
insertion-ordered association lists exactly as Python dicts preserve insertion
order. -/
abbrev Index := List (Str × List (Str × IndexEntry))

/-- Dict assignment `notes[title] = e` at the title level. -/
def titleInsert (notes : List (Str × IndexEntry)) (t : Str) (e : IndexEntry) :
    List (Str × IndexEntry) :=
  match notes with
  | [] => [(t, e)]
  | (s, d) :: rest =>
    if s == t then (s, e) :: rest else (s, d) :: titleInsert rest t e

/-- Dict assignment `self.index[project][title] = e`, creating the project dict if absent. -/
def indexInsert (idx : Index) (p t : Str) (e : IndexEntry) : Index :=
  match idx with
  | [] => [(p, [(t, e)])]
  | (q, notes) :: rest =>
    if q == p then (q, titleInsert notes t e) :: rest
    else (q, notes) :: indexInsert rest p t e

/-- The grouping loop of `rebuild_index`: keep, per `(project, title)` key, the
record with the greatest timestamp
(`if key not in latest_notes or note["timestamp"] > latest_notes[key]["timestamp"]`). -/
def latestInsert (m : List ((Str × Str) × NoteRef)) (n : NoteRef) :
    List ((Str × Str) × NoteRef) :=
  match m with
  | [] => [((n.project, n.title), n)]
  | (k, e) :: rest =>
    if k == (n.project, n.title) then
      (if strLt e.timestamp n.timestamp then (k, n) :: rest else (k, e) :: rest)
    else (k, e) :: latestInsert rest n

/-- The `latest_notes` dict of `rebuild_index`. -/
def latestNotes (notes : List NoteRef) : List ((Str × Str) × NoteRef) :=
  notes.foldl latestInsert []

/-- Source `NotesSearcher.rebuild_index`: reset the index, group `get_all_notes` by
`(project, title)` keeping the maximum timestamp, read each kept unit's content
and build the fresh index; returns `(count, index)`.  A kept unit's path always
comes from an existing file, so the content lookup cannot miss; `getD []`
stands for the never-taken missing-file branch. -/
def rebuild_index (fs : FS) : Nat × Index :=
  let latest := latestNotes (get_all_notes fs)
  let idx := latest.foldl (fun idx kn =>
    indexInsert idx kn.1.1 kn.1.2
      ⟨(read_note_content fs kn.2.path).getD [], kn.2.timestamp, kn.2.path⟩) []
  (latest.length, idx)

/-- One search result of `NotesSearcher.search`; scores are the floats returned
by the fuzzy matcher, modelled as rationals. -/
structure SearchResult where
  project : Str
  title : Str
  content : Str
  score : ℚ
  excerpt : Str
deriving DecidableEq, Repr

/-- Python `str.lower()`, character by character (ASCII; matches Python on the ASCII
range used by the scoring contract). -/
def lowerStr (s : Str) : Str := s.map Char.toLower

/-- Python `content_lower.find(query_lower)`: index of the first occurrence, `none`
for Python's `-1`. -/
def findSub (needle : Str) : Str → Option Nat
  | [] => if needle.isEmpty then some 0 else none
  | c :: t =>
    if isPre needle (c :: t) then some 0
    else (findSub needle t).map (· + 1)

/-- Source `NotesSearcher._generate_excerpt` with its default `context_chars = 150`:
window of 150 characters before the first case-insensitive occurrence and
`150 + len(query)` after its start, clamped, with `"..."` markers at truncated
ends; when the query does not occur literally, the first 300 characters with a
trailing `"..."` if the content is longer. -/
def generate_excerpt (content query : Str) : Str :=
  match findSub (lowerStr query) (lowerStr content) with
  | none => content.take 300 ++ (if 300 < content.length then chars "..." else [])
  | some pos =>
    let start := pos - 150
    let stop := min content.length (pos + query.length + 150)
    let excerpt := (content.take stop).drop start
    let e₁ := if 0 < start then chars "..." ++ excerpt else excerpt
    if stop < content.length then e₁ ++ chars "..." else e₁

/-- The expression `list(self.index.keys())` or `[project]`: the projects searched.  An empty
project string is falsy in Python (`[project] if project else ...`) and selects
all projects. -/
def projectsToSearch (idx : Index) (project : Option Str) : List Str :=
  match project with
  | some (c :: rest) => [c :: rest]
  | _ => idx.map (fun e => e.1)

/-- The `self.index[proj]` lookup (`if proj not in self.index: continue`). -/
def lookupProj (idx : Index) (p : Str) : Option (List (Str × IndexEntry)) :=
  (idx.find? (fun e => e.1 == p)).map (fun e => e.2)

/-- The candidate results of `NotesSearcher.search`, in the iteration order of
the nested loops, BEFORE the final sort: for each searched project and each
indexed note, score the query against title and content (case-insensitively,
with the external fuzzy matcher `pr` standing for `rapidfuzz.fuzz`'s
partial-ratio scorer), keep the note iff `threshold <= best`. -/
def searchCandidates (pr : Str → Str → ℚ) (idx : Index) (query : Str)
    (projs : List Str) (threshold : ℚ) : List SearchResult :=
  (projs.map (fun proj =>
    match lookupProj idx proj with
    | none => []
    | some notes =>
      notes.filterMap (fun tn =>
        let best := max (pr (lowerStr query) (lowerStr tn.1))
                        (pr (lowerStr query) (lowerStr tn.2.content))
        if threshold ≤ best then
          some ⟨proj, tn.1, tn.2.content, best, generate_excerpt tn.2.content query⟩
        else none))).flatten

/-- Stable descending insertion by score: the new element goes before the first
element whose score is less than or equal to its own, exactly reproducing the
output of Python's stable `results.sort(key=..., reverse=True)`. -/
def insertScoreDesc (x : SearchResult) : List SearchResult → List SearchResult
  | [] => [x]
  | y :: ys => if y.score ≤ x.score then x :: y :: ys else y :: insertScoreDesc x ys

/-- The stable descending sort applied to the search results. -/
def sortScoreDesc : List SearchResult → List SearchResult
  | [] => []
  | x :: xs => insertScoreDesc x (sortScoreDesc xs)

/-- Source `NotesSearcher.search`: candidates in iteration order, then the stable
descending sort by score.  Default threshold in the source is 60. -/
def search (pr : Str → Str → ℚ) (idx : Index) (query : Str)
    (project : Option Str) (threshold : ℚ) : List SearchResult :=
  sortScoreDesc (searchCandidates pr idx query (projectsToSearch idx project) threshold)

/-- Removal of one file. -/
def removeFile (fs : FS) (d name : Str) : FS :=
  { fs with files := fs.files.filter (fun f => !(f.dir == d && f.name == name)) }

/-- Modelled from the spec: `NotesStorage.delete_note` is missing from the
repository source — `server.delete_note` and the storage tests call it, but
`storage.py` does not define it.  Following §4.2 of the spec: with `version`
given, delete exactly the one unit of `(project, title)` whose timestamp is
that version (after the `":" -> "-"` filesystem encoding), failing with
`NotFound` if no unit has that exact timestamp; with `version` omitted, delete
every unit of the note, failing with `NotFound` if there are zero units; return
`{"deleted": count, "files": paths}` as the callers and tests expect.  Units
and their timestamps are identified by the same naming scheme the rest of
`storage.py` uses (`safe_title_*.md`, timestamp = segment after the last
underscore of the stem). -/
def delete_note (fs : FS) (project title : Str) (version : Option Str) :
    Except Unit (Nat × List FPath) × FS :=
  let d := (get_project_dir fs project).1
  let fs₁ := (get_project_dir fs project).2
  let safeTitle := sanitize title
  let units := globNote fs₁ d safeTitle
  match version with
  | some v =>
    let vsafe := encodeTs v
    match units.find? (fun f => afterLastUnder (stem f.name) == vsafe) with
    | some f => (Except.ok (1, [(d, f.name)]), removeFile fs₁ d f.name)
    | none => (Except.error (), fs₁)
  | none =>
    if units.isEmpty then (Except.error (), fs₁)
    else
      (Except.ok (units.length, units.map (fun f => (d, f.name))),
       { fs₁ with
         files := fs₁.files.filter (fun f => !(f.dir == d && matchesNote safeTitle f.name)) })

/-- A wall-clock instant as `datetime.datetime` carries it. -/
structure DateTime where
  year : Nat
  month : Nat
  day : Nat
  hour : Nat
  minute : Nat
  second : Nat
  usec : Nat
deriving DecidableEq, Repr

/-- Chronological (strict) order of instants: lexicographic on the fields. -/
def dtLt (a b : DateTime) : Bool :=
  a.year < b.year || (a.year == b.year &&
    (a.month < b.month || (a.month == b.month &&
      (a.day < b.day || (a.day == b.day &&
        (a.hour < b.hour || (a.hour == b.hour &&
          (a.minute < b.minute || (a.minute == b.minute &&
            (a.second < b.second || (a.second == b.second &&
              a.usec < b.usec)))))))))))

/-- A natural number as decimal digits, zero-padded on the left to width `w`. -/
def padNum (w n : Nat) : Str :=
  let d := Nat.toDigits 10 n
  List.replicate (w - d.length) '0' ++ d

/-- Python `datetime.isoformat()`: `YYYY-MM-DDTHH:MM:SS`, with `.ffffff` appended
only when the microsecond field is nonzero. -/
def isoformat (t : DateTime) : Str :=
  padNum 4 t.year ++ ['-'] ++ padNum 2 t.month ++ ['-'] ++ padNum 2 t.day ++ ['T'] ++
  padNum 2 t.hour ++ [':'] ++ padNum 2 t.minute ++ [':'] ++ padNum 2 t.second ++
  (if t.usec == 0 then [] else ['.'] ++ padNum 6 t.usec)

/-- The version files ("units") of the note `(project, title)` in a state, per
the storage layer's naming scheme: the files of the sanitized project directory
matching `safe_title_*.md`. -/
def noteUnits (fs : FS) (p t : Str) : List FSFile :=
  globNote fs (sanitize p) (sanitize t)

/-- The `self.index[p][t]` lookup, as a total function. -/
def lookup2 (idx : Index) (p t : Str) : Option IndexEntry :=
  (lookupProj idx p).bind (fun notes => (notes.find? (fun e => e.1 == t)).map (fun e => e.2))

/-- The `(project, title)` grouping key of `rebuild_index`. -/
def noteKey (n : NoteRef) : Str × Str := (n.project, n.title)

/-- Lookup in the `latest_notes` association list by key. -/
def latestLookup (m : List ((Str × Str) × NoteRef)) (k : Str × Str) : Option NoteRef :=
  (m.find? (fun e => e.1 == k)).map (fun e => e.2)

instance {ε α : Type} [DecidableEq ε] [DecidableEq α] : DecidableEq (Except ε α) :=
  fun a b =>
    match a, b with
    | .error x, .error y =>
      if h : x = y then isTrue (by rw [h])
      else isFalse (by intro hc; injection hc; exact h ‹_›)
    | .error _, .ok _ => isFalse (by intro h; exact Except.noConfusion h)
    | .ok _, .error _ => isFalse (by intro h; exact Except.noConfusion h)
    | .ok x, .ok y =>
      if h : x = y then isTrue (by rw [h])
      else isFalse (by intro hc; injection hc; exact h ‹_›)

/-- The empty storage state. -/
def fsEmpty : FS := ⟨[], []⟩

/-- A state holding one note with one version, stored at
`2025-01-01T10:00:00`. -/
def fsOne : FS :=
  (store_note fsEmpty (chars "P") (chars "Note") (chars "hi")
    (chars "2025-01-01T10:00:00")).2

/-- A state holding one version of the note titled `"A B"`; its on-disk name
`A_B_2025-01-02T00-00-00.md` also matches the glob pattern of the distinct
note titled `"A"`. -/
def fsPrior : FS :=
  (store_note fsEmpty (chars "P") (chars "A B") (chars "other")
    (chars "2025-01-02T00:00:00")).2

/-- An instant with zero microseconds: its `isoformat()` has no fractional
part. -/
def dtWhole : DateTime := ⟨2025, 1, 1, 10, 0, 0, 0⟩

/-- The chronologically next instant, one microsecond later: its `isoformat()`
carries the fractional part `.000001`. -/
def dtMicro : DateTime := ⟨2025, 1, 1, 10, 0, 0, 1⟩

/-- Two versions of the same note stored in chronological order at `dtWhole`
then `dtMicro`. -/
def fsTwoVersions : FS :=
  (store_note
    ((store_note fsEmpty (chars "P") (chars "Note") (chars "one") (isoformat dtWhole)).2)
    (chars "P") (chars "Note") (chars "two") (isoformat dtMicro)).2

/-- A title that itself contains a timestamp-shaped substring. -/
def titleTsLike : Str := chars "log 2025-01-01T10-00-00"

/-- Two versions of the note `titleTsLike`, the first stored at the very
instant named inside the title. -/
def fsTsTitle : FS :=
  (store_note
    ((store_note fsEmpty (chars "P") titleTsLike (chars "c1")
      (chars "2025-01-01T10:00:00")).2)
    (chars "P") titleTsLike (chars "c2") (chars "2025-01-02T09:00:00")).2

/-- A state with two versions of one note plus a second note, used to witness
the delete and rebuild theorems. -/
def fsTwoNotes : FS :=
  (store_note
    ((store_note
      ((store_note fsEmpty (chars "P") (chars "Note") (chars "v1")
        (chars "2025-01-01T10:00:00")).2)
      (chars "P") (chars "Note") (chars "v2") (chars "2025-01-02T11:30:00")).2)
    (chars "P") (chars "Other") (chars "x") (chars "2025-01-03T08:00:00")).2

/-- A one-note index used to witness the search theorem. -/
def idxOne : Index :=
  [(chars "P",
    [(chars "Note",
      ⟨chars "body", chars "2025:01:01T10:00:00", (chars "P", chars "f.md")⟩)])]

/-! Order lemmas for the lexicographic string comparison. -/

theorem strLt_irrefl (s : Str) : strLt s s = false := by
  induction s with
  | nil => rfl
  | cons a as ih => simp [strLt, lt_irrefl, ih]

theorem strLt_asymm : ∀ {a b : Str}, strLt a b = true → strLt b a = false
  | [], [], h => by simp [strLt] at h
  | [], _ :: _, _ => rfl
  | _ :: _, [], h => by simp [strLt] at h
  | x :: xs, y :: ys, h => by
    rcases lt_trichotomy x y with h₁ | h₁ | h₁
    · simp [strLt, lt_asymm h₁, h₁]
    · subst h₁
      simp only [strLt, lt_irrefl, if_false] at h ⊢
      exact strLt_asymm h
    · simp [strLt, h₁, lt_asymm h₁] at h

theorem strLt_trans : ∀ {a b c : Str}, strLt a b = true → strLt b c = true → strLt a c = true
  | [], [], _, h₁, _ => by simp [strLt] at h₁
  | [], _ :: _, [], _, h₂ => by simp [strLt] at h₂
  | [], _ :: _, _ :: _, _, _ => rfl
  | _ :: _, [], _, h₁, _ => by simp [strLt] at h₁
  | _ :: _, _ :: _, [], _, h₂ => by simp [strLt] at h₂
  | x :: xs, y :: ys, z :: zs, h₁, h₂ => by
    rcases lt_trichotomy x y with hxy | hxy | hxy
    · rcases lt_trichotomy y z with hyz | hyz | hyz
      · simp [strLt, lt_trans hxy hyz]
      · subst hyz; simp [strLt, hxy]
      · simp [strLt, hyz, lt_asymm hyz] at h₂
    · subst hxy
      rcases lt_trichotomy x z with hxz | hxz | hxz
      · simp [strLt, hxz]
      · subst hxz
        simp only [strLt, lt_irrefl, if_false] at h₁ h₂ ⊢
        exact strLt_trans h₁ h₂
      · simp [strLt, hxz, lt_asymm hxz] at h₂
    · simp [strLt, hxy, lt_asymm hxy] at h₁

theorem strLt_eq_of_not_lt : ∀ {a b : Str}, strLt a b = false → strLt b a = false → a = b
  | [], [], _, _ => rfl
  | [], _ :: _, h₁, _ => by simp [strLt] at h₁
  | _ :: _, [], _, h₂ => by simp [strLt] at h₂
  | x :: xs, y :: ys, h₁, h₂ => by
    rcases lt_trichotomy x y with hxy | hxy | hxy
    · simp [strLt, hxy] at h₁
    · subst hxy
      simp only [strLt, lt_irrefl, if_false] at h₁ h₂
      rw [strLt_eq_of_not_lt h₁ h₂]
    · simp [strLt, hxy] at h₂

/-! Lemmas about the descending sort used by `retrieve_note`. -/

theorem mem_insertDescBy {α : Type} (key : α → Str) (x : α) :
    ∀ (l : List α) (z : α), z ∈ insertDescBy key x l ↔ z = x ∨ z ∈ l
  | [], z => by simp [insertDescBy]
  | y :: ys, z => by
    simp only [insertDescBy]
    split
    · exact List.mem_cons
    · simp only [List.mem_cons, mem_insertDescBy key x ys z]
      tauto

theorem insertDescBy_perm {α : Type} (key : α → Str) (x : α) :
    ∀ l : List α, (insertDescBy key x l).Perm (x :: l)
  | [] => List.Perm.refl _
  | y :: ys => by
    simp only [insertDescBy]
    split
    · exact List.Perm.refl _
    · exact ((insertDescBy_perm key x ys).cons y).trans (List.Perm.swap x y ys)

theorem sortDescBy_perm {α : Type} (key : α → Str) :
    ∀ l : List α, (sortDescBy key l).Perm l
  | [] => List.Perm.refl _
  | x :: xs =>
    (insertDescBy_perm key x (sortDescBy key xs)).trans ((sortDescBy_perm key xs).cons x)

theorem pairwise_insertDescBy {α : Type} (key : α → Str) (x : α) :
    ∀ l : List α, l.Pairwise (fun a b => strLt (key a) (key b) = false) →
      (insertDescBy key x l).Pairwise (fun a b => strLt (key a) (key b) = false)
  | [], _ => List.pairwise_singleton _ _
  | y :: ys, hp => by
    rcases List.pairwise_cons.mp hp with ⟨hy, hys⟩
    simp only [insertDescBy]
    split
    · rename_i hlt
      refine List.pairwise_cons.mpr ⟨?_, hp⟩
      intro z hz
      rcases List.mem_cons.mp hz with rfl | hz
      · exact strLt_asymm hlt
      · rcases Bool.eq_false_or_eq_true (strLt (key x) (key z)) with h | h
        · exact absurd (strLt_trans hlt h) (by simp [hy z hz])
        · exact h
    · rename_i hnlt
      refine List.pairwise_cons.mpr ⟨?_, pairwise_insertDescBy key x ys hys⟩
      intro z hz
      rcases (mem_insertDescBy key x ys z).mp hz with rfl | hz
      · exact Bool.eq_false_iff.mpr (fun h => hnlt h)
      · exact hy z hz

theorem pairwise_sortDescBy {α : Type} (key : α → Str) :
    ∀ l : List α, (sortDescBy key l).Pairwise (fun a b => strLt (key a) (key b) = false)
  | [] => List.Pairwise.nil
  | x :: xs => pairwise_insertDescBy key x (sortDescBy key xs) (pairwise_sortDescBy key xs)

/-- On a descending-sorted list, `find?` returns an element whose key is
maximal among all elements satisfying the predicate. -/
theorem find?_max_of_pairwise {α : Type} (key : α → Str) (P : α → Bool) :
    ∀ l : List α, l.Pairwise (fun a b => strLt (key a) (key b) = false) →
      ∀ g, l.find? P = some g →
        ∀ h', h' ∈ l → P h' = true → strLt (key g) (key h') = false
  | [], _, g, hf => by simp at hf
  | a :: t, hp, g, hf => by
    rcases List.pairwise_cons.mp hp with ⟨ha, ht⟩
    intro h' hmem hP
    by_cases hPa : P a = true
    · rw [List.find?_cons_of_pos _ hPa] at hf
      injection hf with hf; subst hf
      rcases List.mem_cons.mp hmem with rfl | hmem
      · exact strLt_irrefl _
      · exact ha h' hmem
    · rw [List.find?_cons_of_neg _ (by simpa using hPa)] at hf
      rcases List.mem_cons.mp hmem with rfl | hmem
      · exact absurd hP hPa
      · exact find?_max_of_pairwise key P t ht g hf h' hmem hP

/-- If one element strictly dominates every other element of the list, the
descending sort puts it first. -/
theorem sortDescBy_head_eq {α : Type} (key : α → Str) (l : List α) (F : α)
    (hF : F ∈ l) (hmax : ∀ g ∈ l, g ≠ F → strLt (key g) (key F) = true) :
    ∃ tl, sortDescBy key l = F :: tl := by
  have hperm := sortDescBy_perm key l
  have hpw := pairwise_sortDescBy key l
  cases hs : sortDescBy key l with
  | nil =>
    rw [hs] at hperm
    have hnil : l = [] := hperm.symm.eq_nil
    rw [hnil] at hF
    exact absurd hF (List.not_mem_nil F)
  | cons h₀ tl =>
    refine ⟨tl, ?_⟩
    by_cases hne : h₀ = F
    · rw [hne]
    · exfalso
      have hF' : F ∈ h₀ :: tl := hs ▸ hperm.symm.subset hF
      have hFtl : F ∈ tl := by
        rcases List.mem_cons.mp hF' with rfl | hm
        · exact absurd rfl hne
        · exact hm
      have h₀l : h₀ ∈ l := hperm.subset (hs ▸ List.mem_cons_self h₀ tl)
      have h₁ : strLt (key h₀) (key F) = true := hmax h₀ h₀l hne
      have h₂ : strLt (key h₀) (key F) = false := by
        have := List.pairwise_cons.mp (hs ▸ hpw)
        exact this.1 F hFtl
      rw [h₁] at h₂; exact Bool.noConfusion h₂

/-! Decomposition lemmas for filenames. -/

theorem isPre_append_self : ∀ (p r : Str), isPre p (p ++ r) = true
  | [], _ => rfl
  | c :: cs, r => by simp [isPre, isPre_append_self cs r]

theorem isPre_iff : ∀ (p s : Str), isPre p s = true ↔ ∃ r, s = p ++ r
  | [], s => by simp [isPre]
  | c :: cs, [] => by simp [isPre]
  | c :: cs, d :: ds => by
    simp only [isPre, Bool.and_eq_true, beq_iff_eq, isPre_iff cs ds]
    constructor
    · rintro ⟨rfl, r, rfl⟩; exact ⟨r, rfl⟩
    · rintro ⟨r, hr⟩
      injection hr with h₁ h₂
      exact ⟨h₁.symm, r, h₂⟩

theorem isSuf_append_self (p a : Str) : isSuf p (a ++ p) = true := by
  simp only [isSuf, List.reverse_append]
  exact isPre_append_self p.reverse a.reverse

theorem isSub_self_append : ∀ (n b : Str), isSub n (n ++ b) = true
  | [], [] => rfl
  | [], c :: t => by simp [isSub, isPre]
  | c :: cs, b => by
    have h := isPre_append_self (c :: cs) b
    simp only [List.cons_append] at h
    simp [isSub, h]

theorem isSub_of_append : ∀ (a : Str) (n b : Str), isSub n (a ++ (n ++ b)) = true
  | [], n, b => isSub_self_append n b
  | c :: cs, n, b => by
    simp [isSub, isSub_of_append cs n b]

theorem rsplitChar_eq_none : ∀ {sep : Char} {s : Str}, sep ∉ s → rsplitChar sep s = none
  | _, [], _ => rfl
  | sep, c :: t, h => by
    have hc : ¬ c = sep := fun hcc => h (hcc ▸ List.mem_cons_self c t)
    have ht : sep ∉ t := fun hm => h (List.mem_cons_of_mem c hm)
    simp [rsplitChar, rsplitChar_eq_none ht, hc]

theorem rsplitChar_append {sep : Char} {b : Str} (hb : sep ∉ b) :
    ∀ a : Str, rsplitChar sep (a ++ sep :: b) = some (a, b)
  | [] => by simp [rsplitChar, rsplitChar_eq_none hb]
  | c :: a => by simp [rsplitChar, rsplitChar_append hb a]

theorem stem_decomp {b : Str} (hb : '.' ∉ b) (hbne : b ≠ []) (a : Str) (hane : a ≠ []) :
    stem (a ++ '.' :: b) = a := by
  simp [stem, rsplitChar_append hb a, hane, hbne]

theorem afterLastUnder_decomp {b : Str} (hb : '_' ∉ b) (a : Str) :
    afterLastUnder (a ++ '_' :: b) = b := by
  simp [afterLastUnder, rsplitChar_append hb a]

theorem not_mem_encodeTs_under {now : Str} (h : '_' ∉ now) : '_' ∉ encodeTs now := by
  intro hmem
  rcases List.mem_map.mp hmem with ⟨c, hc, hcc⟩
  by_cases hcol : c = ':'
  · subst hcol; simp [colonToHyphen] at hcc
  · rw [show colonToHyphen c = c by simp [colonToHyphen, hcol]] at hcc
    exact h (hcc ▸ hc)

/-- The generated filename decomposes as `stem ++ ".md"` with the stem
`safe_title ++ "_" ++ encoded-timestamp`. -/
theorem stem_generate_filename (t now : Str) :
    stem (generate_filename t now) = sanitize t ++ '_' :: encodeTs now := by
  have h : generate_filename t now
      = (sanitize t ++ '_' :: encodeTs now) ++ '.' :: ['m', 'd'] := by
    simp [generate_filename, mdExt, chars]
  rw [h, stem_decomp (by decide) (by decide) _ (by simp)]

theorem extractTimestamp_generate {now : Str} (hu : '_' ∉ now) (t : Str) :
    extractTimestamp (generate_filename t now) = decodeTs (encodeTs now) := by
  rw [extractTimestamp, stem_generate_filename,
    afterLastUnder_decomp (not_mem_encodeTs_under hu)]

theorem matchesNote_generate (t now : Str) :
    matchesNote (sanitize t) (generate_filename t now) = true := by
  have h₁ : isPre (sanitize t ++ ['_']) (generate_filename t now) = true := by
    have : generate_filename t now = (sanitize t ++ ['_']) ++ (encodeTs now ++ mdExt) := by
      simp [generate_filename]
    rw [this]; exact isPre_append_self _ _
  have h₂ : isSuf mdExt (generate_filename t now) = true := by
    have : generate_filename t now = (sanitize t ++ '_' :: encodeTs now) ++ mdExt := by
      simp [generate_filename]
    rw [this]; exact isSuf_append_self _ _
  have h₃ : (sanitize t).length + 4 ≤ (generate_filename t now).length := by
    simp [generate_filename, mdExt, chars]
  simp [matchesNote, h₁, h₂, h₃]

/-- The encoded timestamp occurs as a substring of the generated filename. -/
theorem isSub_encodeTs_generate (t now : Str) :
    isSub (encodeTs now) (generate_filename t now) = true := by
  have h : generate_filename t now
      = (sanitize t ++ ['_']) ++ (encodeTs now ++ mdExt) := by
    simp [generate_filename]
  rw [h]; exact isSub_of_append _ _ _

/-- Re-encoding the reported version string restores the on-disk timestamp
exactly: a stored timestamp contains no colon, so `replace("-", ":")` followed
by `replace(":", "-")` is the identity on it. -/
theorem encodeTs_decodeTs_encodeTs (now : Str) :
    encodeTs (decodeTs (encodeTs now)) = encodeTs now := by
  simp only [encodeTs, decodeTs, List.map_map]
  refine List.map_congr_left (fun c _ => ?_)
  by_cases h₁ : c = ':'
  · simp [h₁, colonToHyphen, hyphenToColon, Function.comp]
  · by_cases h₂ : c = '-'
    · simp [h₂, colonToHyphen, hyphenToColon, Function.comp]
    · simp [colonToHyphen, hyphenToColon, Function.comp, h₁, h₂]

theorem decodeTs_ne_nil {now : Str} (h : now ≠ []) : decodeTs now ≠ [] := by
  cases now with
  | nil => exact absurd rfl h
  | cons c t => simp [decodeTs]

/-! State-effect lemmas and unfolding equations for the storage operations. -/

theorem mkdirIfAbsent_files (fs : FS) (d : Str) : (mkdirIfAbsent fs d).files = fs.files := by
  unfold mkdirIfAbsent
  split <;> rfl

theorem globNote_mkdir (fs : FS) (d' d st : Str) :
    globNote (mkdirIfAbsent fs d') d st = globNote fs d st := by
  unfold globNote
  rw [mkdirIfAbsent_files]

/-- Equation: `retrieve_note` unfolded to an explicit form. -/
theorem retrieve_note_eq (fs : FS) (p t : Str) (v : Option Str) :
    retrieve_note fs p t v =
      ((match sortDescBy (fun f => f.name)
            (globNote (mkdirIfAbsent fs (sanitize p)) (sanitize p) (sanitize t)), v with
        | [], _ => Except.error ()
        | _ :: _, some (c :: rest) =>
          (match (sortDescBy (fun f => f.name)
              (globNote (mkdirIfAbsent fs (sanitize p)) (sanitize p) (sanitize t))).find?
              (fun f => isSub (encodeTs (c :: rest)) f.name) with
           | some f => Except.ok (f.content, extractTimestamp f.name)
           | none => Except.error ())
        | v₀ :: _, _ => Except.ok (v₀.content, extractTimestamp v₀.name)),
       mkdirIfAbsent fs (sanitize p)) := rfl

/-- A store into a state holding no file with the new file's directory and name
appends exactly that one file. -/
theorem store_note_files (fs : FS) (p t c now : Str)
    (h : ∀ f ∈ fs.files, ¬(f.dir = sanitize p ∧ f.name = generate_filename t now)) :
    (store_note fs p t c now).2.files
      = fs.files ++ [⟨sanitize p, generate_filename t now, c⟩] := by
  have hany : ((mkdirIfAbsent fs (sanitize p)).files.any
      (fun f => f.dir == sanitize p && f.name == generate_filename t now)) = false := by
    rw [mkdirIfAbsent_files]
    rw [List.any_eq_false]
    intro f hf
    simp only [Bool.and_eq_true, beq_iff_eq, not_and]
    intro h₁ h₂
    exact h f hf ⟨h₁, h₂⟩
  show (writeFile (mkdirIfAbsent fs (sanitize p)) (sanitize p) (generate_filename t now) c).files
      = _
  unfold writeFile
  rw [hany]
  simp only [Bool.false_eq_true, if_false]
  rw [mkdirIfAbsent_files]

theorem noteUnits_eq_filter (fs : FS) (p t : Str) :
    noteUnits fs p t
      = fs.files.filter
          (fun f => f.dir == sanitize p && matchesNote (sanitize t) f.name) := rfl

/-! Claim C4 (read-only operations). -/

/-- C4 counterexample: calling `list_notes` with a project that has no
directory DOES create that directory — the resulting state differs from the
input state by the new (empty) project directory, refuting "read operations
leave the on-disk storage state unchanged; in particular, calling retrieve or
list_notes with a project that has no directory does not create any directory
or file". -/
theorem list_notes_creates_project_dir :
    (list_notes fsEmpty (chars "P")).2 = (⟨[chars "P"], []⟩ : FS) ∧
    (list_notes fsEmpty (chars "P")).2 ≠ fsEmpty := by decide

/-- C4 amended: `retrieve_note` and `list_notes` never change the note files,
but both create the sanitized project directory when it is absent (through
`_get_project_dir`); `list_projects` and `get_all_notes` read the state without
returning a modified one, and `search` reads only the in-memory index. -/
theorem reads_preserve_files_but_create_dir (fs : FS) (p t : Str) (v : Option Str) :
    (retrieve_note fs p t v).2.files = fs.files ∧
    (retrieve_note fs p t v).2.dirs
      = (if fs.dirs.contains (sanitize p) then fs.dirs else fs.dirs ++ [sanitize p]) ∧
    (list_notes fs p).2.files = fs.files ∧
    (list_notes fs p).2.dirs
      = (if fs.dirs.contains (sanitize p) then fs.dirs else fs.dirs ++ [sanitize p]) := by
  have h₁ : (retrieve_note fs p t v).2 = mkdirIfAbsent fs (sanitize p) :=
    congrArg Prod.snd (retrieve_note_eq fs p t v)
  have h₂ : (list_notes fs p).2 = mkdirIfAbsent fs (sanitize p) := rfl
  rw [h₁, h₂, mkdirIfAbsent_files]
  refine ⟨rfl, ?_, rfl, ?_⟩ <;>
    · unfold mkdirIfAbsent
      split <;> simp_all

/-! Claim C9 (empty title or content is not rejected). -/

/-- C9: the claim says a store request with an empty title, empty content, or a
title that sanitizes to the empty string is rejected before reaching storage
with no unit written.  The code has no such validation: neither the
`store_note` tool in `server.py` nor `NotesStorage.store_note` checks the
inputs, and storing content under the title `"///"` (which sanitizes to the
empty string) writes the unit `_2025-01-01T10-00-00.md` to the project
directory. -/
theorem store_note_empty_title_writes_unit :
    sanitize (chars "///") = [] ∧
    (store_note fsEmpty (chars "P") (chars "///") (chars "body")
        (chars "2025-01-01T10:00:00")).2
      = ⟨[chars "P"],
         [⟨chars "P", chars "_2025-01-01T10-00-00.md", chars "body"⟩]⟩ := by decide

/-! Claim C2 (version retrieval by exact timestamp). -/

/-- C2 counterexample: the note has exactly one unit, whose timestamp is
`2025-01-01T10-00-00`; no unit has the timestamp `2025`, so the claim requires
`retrieve` of version `"2025"` to fail with `NotFound` — but the code matches
the requested version by substring against the filename and succeeds. -/
theorem retrieve_note_accepts_fragment :
    (∀ u ∈ noteUnits fsOne (chars "P") (chars "Note"),
        afterLastUnder (stem u.name) ≠ encodeTs (chars "2025")) ∧
    (retrieve_note fsOne (chars "P") (chars "Note") (some (chars "2025"))).1
      = Except.ok (chars "hi", chars "2025:01:01T10:00:00") := by decide

/-- C2 amended: `retrieve` with an explicit (non-empty) version returns the
content and extracted timestamp of the unit with the LEXICOGRAPHICALLY GREATEST
filename among the note's units whose filename merely CONTAINS
`version.replace(":", "-")` as a substring, and fails with `NotFound` exactly
when no unit's filename contains it; a version string that is a fragment of a
filename IS accepted. -/
theorem retrieve_version_substring_semantics (fs : FS) (p t v : Str) (hv : v ≠ []) :
    ((∀ f ∈ noteUnits fs p t, isSub (encodeTs v) f.name = false) →
      (retrieve_note fs p t (some v)).1 = Except.error ()) ∧
    (∀ u ∈ noteUnits fs p t, isSub (encodeTs v) u.name = true →
      ∃ g ∈ noteUnits fs p t, isSub (encodeTs v) g.name = true ∧
        (∀ h' ∈ noteUnits fs p t, isSub (encodeTs v) h'.name = true →
          strLt g.name h'.name = false) ∧
        (retrieve_note fs p t (some v)).1 = Except.ok (g.content, extractTimestamp g.name)) := by
  cases v with
  | nil => exact absurd rfl hv
  | cons c rest =>
  have hglob : globNote (mkdirIfAbsent fs (sanitize p)) (sanitize p) (sanitize t)
      = noteUnits fs p t := globNote_mkdir fs (sanitize p) (sanitize p) (sanitize t)
  have hperm :
      (sortDescBy (fun f => f.name)
        (globNote (mkdirIfAbsent fs (sanitize p)) (sanitize p) (sanitize t))).Perm
        (noteUnits fs p t) := by
    rw [hglob]; exact sortDescBy_perm _ _
  constructor
  · intro hall
    rw [retrieve_note_eq]
    cases hL : sortDescBy (fun f => f.name)
        (globNote (mkdirIfAbsent fs (sanitize p)) (sanitize p) (sanitize t)) with
    | nil => rfl
    | cons f₀ tl =>
      have hnone : (f₀ :: tl).find? (fun f => isSub (encodeTs (c :: rest)) f.name) = none := by
        rw [List.find?_eq_none]
        intro f hf
        have hmem : f ∈ noteUnits fs p t := (hL ▸ hperm).subset hf
        simp [hall f hmem]
      simp only [hL, hnone]
  · intro u hu hsub
    have hune : sortDescBy (fun f => f.name)
        (globNote (mkdirIfAbsent fs (sanitize p)) (sanitize p) (sanitize t)) ≠ [] := by
      intro hnil
      rw [hnil] at hperm
      rw [hperm.symm.eq_nil] at hu
      exact absurd hu (List.not_mem_nil u)
    cases hL : sortDescBy (fun f => f.name)
        (globNote (mkdirIfAbsent fs (sanitize p)) (sanitize p) (sanitize t)) with
    | nil => exact absurd hL hune
    | cons f₀ tl =>
      have hfind : ((f₀ :: tl).find? (fun f => isSub (encodeTs (c :: rest)) f.name)).isSome := by
        rcases hfe : (f₀ :: tl).find? (fun f => isSub (encodeTs (c :: rest)) f.name) with _ | g
        · rw [List.find?_eq_none] at hfe
          have humem : u ∈ f₀ :: tl := (hL ▸ hperm).mem_iff.mpr hu
          exact absurd hsub (by simpa using hfe u humem)
        · rw [hfe]; rfl
      rcases Option.isSome_iff_exists.mp hfind with ⟨g, hg⟩
      refine ⟨g, ?_, ?_, ?_, ?_⟩
      · exact (hL ▸ hperm).subset (List.mem_of_find?_eq_some hg)
      · have hgp := List.find?_some hg
        simpa using hgp
      · intro h' hmem' hsub'
        have hpw := pairwise_sortDescBy (fun f => f.name)
          (globNote (mkdirIfAbsent fs (sanitize p)) (sanitize p) (sanitize t))
        rw [hL] at hpw
        exact find?_max_of_pairwise (fun f => f.name)
          (fun f => isSub (encodeTs (c :: rest)) f.name) (f₀ :: tl) hpw g hg h'
          ((hL ▸ hperm).mem_iff.mpr hmem') hsub'
      · rw [retrieve_note_eq]
        simp only [hL, hg]

/-- C2 witness: in the one-unit state, the whole class of substring-matching
versions is exercised at the fragment `"2025"`. -/
theorem retrieve_version_substring_semantics_witness :
    ∃ g ∈ noteUnits fsOne (chars "P") (chars "Note"),
      isSub (encodeTs (chars "2025")) g.name = true ∧
      (∀ h' ∈ noteUnits fsOne (chars "P") (chars "Note"),
        isSub (encodeTs (chars "2025")) h'.name = true →
        strLt g.name h'.name = false) ∧
      (retrieve_note fsOne (chars "P") (chars "Note") (some (chars "2025"))).1
        = Except.ok (g.content, extractTimestamp g.name) :=
  (retrieve_version_substring_semantics fsOne (chars "P") (chars "Note")
    (chars "2025") (by decide)).2
    ⟨chars "P", chars "Note_2025-01-01T10-00-00.md", chars "hi"⟩
    (by decide) (by decide)

/-! Claim C3 (store/retrieve round trip). -/

/-- C3 counterexample: with a pre-existing note titled `"A B"` (one unit,
content `"other"`), storing content `"mine"` under the distinct title `"A"`
and immediately retrieving `"A"` without a version argument returns `"other"`:
the glob pattern `A_*.md` also matches `A_B_....md`, which sorts above the new
unit, so the round trip does NOT return the stored content. -/
theorem store_retrieve_roundtrip_fails :
    (retrieve_note (store_note fsPrior (chars "P") (chars "A") (chars "mine")
        (chars "2025-01-03T00:00:00")).2 (chars "P") (chars "A") none).1
      = Except.ok (chars "other", chars "2025:01:02T00:00:00") ∧
    chars "other" ≠ chars "mine" := by decide

/-- C3 amended: retrieving immediately after a store returns exactly the stored
content — with its timestamp equal to the store call's timestamp re-encoded
(all hyphens and colons reported as colons) — PROVIDED every pre-existing file
of the project directory that matches the note's glob pattern has a filename
lexicographically below the new unit's (in particular from a state where the
note's pattern matches nothing, such as a fresh project), and the timestamp
contains no underscore (as `datetime.isoformat()` never does). -/
theorem store_retrieve_roundtrip_amended (fs : FS) (p t c now : Str)
    (hu : '_' ∉ now)
    (hdom : ∀ f ∈ fs.files, f.dir = sanitize p → matchesNote (sanitize t) f.name = true →
      strLt f.name (generate_filename t now) = true) :
    (retrieve_note (store_note fs p t c now).2 p t none).1
      = Except.ok (c, decodeTs (encodeTs now)) := by
  have hfresh : ∀ f ∈ fs.files, ¬(f.dir = sanitize p ∧ f.name = generate_filename t now) := by
    intro f hf hc
    have hm : matchesNote (sanitize t) f.name = true := by
      rw [hc.2]; exact matchesNote_generate t now
    have hlt := hdom f hf hc.1 hm
    rw [hc.2, strLt_irrefl] at hlt
    exact Bool.noConfusion hlt
  have hfiles : (store_note fs p t c now).2.files
      = fs.files ++ [⟨sanitize p, generate_filename t now, c⟩] :=
    store_note_files fs p t c now hfresh
  set F : FSFile := ⟨sanitize p, generate_filename t now, c⟩ with hF
  set L := globNote (mkdirIfAbsent (store_note fs p t c now).2 (sanitize p))
    (sanitize p) (sanitize t) with hLdef
  have hLfilter : L = fs.files.filter
        (fun f => f.dir == sanitize p && matchesNote (sanitize t) f.name) ++ [F] := by
    rw [hLdef]
    unfold globNote
    rw [mkdirIfAbsent_files, hfiles, List.filter_append]
    congr 1
    simp [List.filter_cons, matchesNote_generate]
  have hmemF : F ∈ L := by rw [hLfilter]; exact List.mem_append_right _ (List.mem_singleton.mpr rfl)
  have hdomL : ∀ g ∈ L, g ≠ F → strLt g.name F.name = true := by
    intro g hg hne
    rw [hLfilter] at hg
    rcases List.mem_append.mp hg with hg | hg
    · have hgf := List.mem_filter.mp hg
      have := hgf.2
      simp only [Bool.and_eq_true, beq_iff_eq] at this
      exact hdom g hgf.1 this.1 this.2
    · exact absurd (List.mem_singleton.mp hg) hne
  rcases sortDescBy_head_eq (fun f => f.name) L F hmemF hdomL with ⟨tl, htl⟩
  rw [retrieve_note_eq]
  rw [← hLdef, htl]
  simp only
  rw [extractTimestamp_generate hu]

/-- C3 witness: storing into an empty state and retrieving returns the stored
content and the re-encoded store-time timestamp. -/
theorem store_retrieve_roundtrip_amended_witness :
    '_' ∉ chars "2025-01-01T10:00:00" ∧
    (retrieve_note (store_note fsEmpty (chars "P") (chars "Note") (chars "hi")
        (chars "2025-01-01T10:00:00")).2 (chars "P") (chars "Note") none).1
      = Except.ok (chars "hi", decodeTs (encodeTs (chars "2025-01-01T10:00:00"))) :=
  ⟨by decide,
   store_retrieve_roundtrip_amended fsEmpty (chars "P") (chars "Note") (chars "hi")
     (chars "2025-01-01T10:00:00") (by decide) (by decide)⟩

/-! Claim C5 (versioning monotonicity). -/

/-- C5 counterexample: the same note is stored twice, first at the instant
`2025-01-01 10:00:00.000000` (whose `isoformat()` omits the fractional part)
and then one microsecond later (whose `isoformat()` carries `.000001`).  The
timestamps are distinct and the second store is chronologically later, yet
retrieving without a version argument returns the FIRST content: the filename
`..T10-00-00.md` sorts above `..T10-00-00.000001.md`, so descending filename
order is not chronologically correct. -/
theorem versioning_monotonicity_fails :
    dtLt dtWhole dtMicro = true ∧
    isoformat dtWhole ≠ isoformat dtMicro ∧
    (retrieve_note fsTwoVersions (chars "P") (chars "Note") none).1
      = Except.ok (chars "one", chars "2025:01:01T10:00:00") ∧
    chars "one" ≠ chars "two" := by decide

/-- C5 amended: storing `c₁` then `c₂` for the same note, from a state where
the note's glob pattern matches nothing, and retrieving without a version
argument returns `c₂` PROVIDED the on-disk filename of the second store is
lexicographically greater than the first's — which descending-sort selection
needs, holds whenever both `isoformat()` timestamps carry the same format
(e.g. both with fractional seconds), but fails in the mixed
fractional/non-fractional corner exhibited by the counterexample. -/
theorem versioning_monotonic_amended (fs : FS) (p t c₁ c₂ now₁ now₂ : Str)
    (hu : '_' ∉ now₂)
    (hclean : ∀ f ∈ fs.files, f.dir = sanitize p → matchesNote (sanitize t) f.name = false)
    (hord : strLt (generate_filename t now₁) (generate_filename t now₂) = true) :
    (retrieve_note
        (store_note (store_note fs p t c₁ now₁).2 p t c₂ now₂).2 p t none).1
      = Except.ok (c₂, decodeTs (encodeTs now₂)) := by
  set F₁ : FSFile := ⟨sanitize p, generate_filename t now₁, c₁⟩ with hF₁
  set F₂ : FSFile := ⟨sanitize p, generate_filename t now₂, c₂⟩ with hF₂
  have hfresh₁ : ∀ f ∈ fs.files, ¬(f.dir = sanitize p ∧ f.name = generate_filename t now₁) := by
    intro f hf hc
    have hm : matchesNote (sanitize t) f.name = true := by
      rw [hc.2]; exact matchesNote_generate t now₁
    rw [hclean f hf hc.1] at hm
    exact Bool.noConfusion hm
  have hfiles₁ : (store_note fs p t c₁ now₁).2.files = fs.files ++ [F₁] :=
    store_note_files fs p t c₁ now₁ hfresh₁
  have hne₁₂ : generate_filename t now₁ ≠ generate_filename t now₂ := by
    intro hcc
    rw [hcc, strLt_irrefl] at hord
    exact Bool.noConfusion hord
  have hfresh₂ : ∀ f ∈ (store_note fs p t c₁ now₁).2.files,
      ¬(f.dir = sanitize p ∧ f.name = generate_filename t now₂) := by
    rw [hfiles₁]
    intro f hf hc
    rcases List.mem_append.mp hf with hf | hf
    · have hm : matchesNote (sanitize t) f.name = true := by
        rw [hc.2]; exact matchesNote_generate t now₂
      rw [hclean f hf hc.1] at hm
      exact Bool.noConfusion hm
    · rw [List.mem_singleton.mp hf] at hc
      exact hne₁₂ hc.2
  have hfiles₂ : (store_note (store_note fs p t c₁ now₁).2 p t c₂ now₂).2.files
      = fs.files ++ [F₁] ++ [F₂] := by
    rw [store_note_files _ p t c₂ now₂ hfresh₂, hfiles₁]
  set L := globNote
    (mkdirIfAbsent (store_note (store_note fs p t c₁ now₁).2 p t c₂ now₂).2 (sanitize p))
    (sanitize p) (sanitize t) with hLdef
  have hLval : L = [F₁, F₂] := by
    rw [hLdef]
    unfold globNote
    rw [mkdirIfAbsent_files, hfiles₂, List.filter_append, List.filter_append]
    have hnil : fs.files.filter
        (fun f => f.dir == sanitize p && matchesNote (sanitize t) f.name) = [] := by
      rw [List.filter_eq_nil_iff]
      intro f hf
      simp only [Bool.and_eq_true, beq_iff_eq, not_and]
      intro h₁
      rw [hclean f hf h₁]
      exact Bool.noConfusion
    simp [hnil, List.filter_cons, matchesNote_generate]
  have hsort : sortDescBy (fun f => f.name) L = [F₂, F₁] := by
    rw [hLval]
    simp [sortDescBy, insertDescBy, strLt_asymm hord]
  rw [retrieve_note_eq, ← hLdef, hsort]
  simp only
  rw [extractTimestamp_generate hu]

/-- C5 witness: two stores with microsecond-bearing timestamps, retrieved from
an empty initial state, return the second content. -/
theorem versioning_monotonic_amended_witness :
    (retrieve_note
        (store_note (store_note fsEmpty (chars "P") (chars "Note") (chars "one")
            (chars "2025-01-01T10:00:00.000001")).2
          (chars "P") (chars "Note") (chars "two") (chars "2025-01-01T10:00:00.000002")).2
        (chars "P") (chars "Note") none).1
      = Except.ok (chars "two", decodeTs (encodeTs (chars "2025-01-01T10:00:00.000002"))) :=
  versioning_monotonic_amended fsEmpty (chars "P") (chars "Note") (chars "one")
    (chars "two") (chars "2025-01-01T10:00:00.000001") (chars "2025-01-01T10:00:00.000002")
    (by decide) (by decide) (by decide)

/-! Claim C10 (version string round trip). -/

/-- C10 counterexample: the note's title itself contains a timestamp-shaped
substring.  After the first store, retrieve reports the version
`2025:01:01T10:00:00` for the unit holding `"c1"`.  After a second store,
retrieving with that very version string returns `"c2"`: the re-encoded
timestamp occurs (inside the title portion) in EVERY unit's filename, and the
descending scan hits the newer unit first.  So retrieval with a previously
returned version string does not always return that version's content. -/
theorem version_roundtrip_fails :
    (retrieve_note (store_note fsEmpty (chars "P") titleTsLike (chars "c1")
        (chars "2025-01-01T10:00:00")).2 (chars "P") titleTsLike none).1
      = Except.ok (chars "c1", chars "2025:01:01T10:00:00") ∧
    (retrieve_note fsTsTitle (chars "P") titleTsLike
        (some (chars "2025:01:01T10:00:00"))).1
      = Except.ok (chars "c2", chars "2025:01:02T09:00:00") ∧
    chars "c2" ≠ chars "c1" := by decide

/-- C10 amended: the colon-to-hyphen re-encoding of the version argument
ALWAYS restores the timestamp portion of the on-disk filename exactly (the
reported version of a stored unit is `decodeTs (encodeTs now)`, and re-encoding
it yields `encodeTs now` again), and retrieving with the previously returned
version string succeeds and returns that version's content PROVIDED no other
unit of the note whose filename contains the encoded timestamp as a substring
sorts above the unit itself — the counterexample shows a title containing a
timestamp-shaped substring violates this proviso. -/
theorem version_roundtrip_amended (fs : FS) (p t now c : Str)
    (hnow : now ≠ []) (hu : '_' ∉ now)
    (hmem : (⟨sanitize p, generate_filename t now, c⟩ : FSFile) ∈ fs.files)
    (hmax : ∀ f ∈ noteUnits fs p t, isSub (encodeTs now) f.name = true →
      f = (⟨sanitize p, generate_filename t now, c⟩ : FSFile) ∨
      strLt f.name (generate_filename t now) = true) :
    extractTimestamp (generate_filename t now) = decodeTs (encodeTs now) ∧
    encodeTs (decodeTs (encodeTs now)) = encodeTs now ∧
    (retrieve_note fs p t (some (decodeTs (encodeTs now)))).1
      = Except.ok (c, decodeTs (encodeTs now)) := by
  refine ⟨extractTimestamp_generate hu t, encodeTs_decodeTs_encodeTs now, ?_⟩
  set U : FSFile := ⟨sanitize p, generate_filename t now, c⟩ with hU
  have hUunit : U ∈ noteUnits fs p t := by
    rw [noteUnits_eq_filter]
    refine List.mem_filter.mpr ⟨hmem, ?_⟩
    simp [matchesNote_generate]
  have hvne : decodeTs (encodeTs now) ≠ [] :=
    decodeTs_ne_nil (by cases now with
      | nil => exact absurd rfl hnow
      | cons a l => simp [encodeTs])
  obtain ⟨c', rest, hv⟩ : ∃ c' rest, decodeTs (encodeTs now) = c' :: rest := by
    cases hvv : decodeTs (encodeTs now) with
    | nil => exact absurd hvv hvne
    | cons a l => exact ⟨a, l, rfl⟩
  have henc : encodeTs (c' :: rest) = encodeTs now := by
    rw [← hv]; exact encodeTs_decodeTs_encodeTs now
  have hglob : globNote (mkdirIfAbsent fs (sanitize p)) (sanitize p) (sanitize t)
      = noteUnits fs p t := globNote_mkdir fs (sanitize p) (sanitize p) (sanitize t)
  have hperm :
      (sortDescBy (fun f => f.name)
        (globNote (mkdirIfAbsent fs (sanitize p)) (sanitize p) (sanitize t))).Perm
        (noteUnits fs p t) := by
    rw [hglob]; exact sortDescBy_perm _ _
  have hUsub : isSub (encodeTs now) U.name = true := isSub_encodeTs_generate t now
  cases hL : sortDescBy (fun f => f.name)
      (globNote (mkdirIfAbsent fs (sanitize p)) (sanitize p) (sanitize t)) with
  | nil =>
    rw [hL] at hperm
    rw [hperm.symm.eq_nil] at hUunit
    exact absurd hUunit (List.not_mem_nil U)
  | cons f₀ tl =>
    have hfind : ((f₀ :: tl).find? (fun f => isSub (encodeTs (c' :: rest)) f.name)).isSome := by
      rcases hfe : (f₀ :: tl).find? (fun f => isSub (encodeTs (c' :: rest)) f.name) with _ | g
      · rw [List.find?_eq_none] at hfe
        have humem : U ∈ f₀ :: tl := (hL ▸ hperm).mem_iff.mpr hUunit
        have := hfe U humem
        rw [henc] at this
        exact absurd hUsub (by simpa using this)
      · rw [hfe]; rfl
    rcases Option.isSome_iff_exists.mp hfind with ⟨g, hg⟩
    have hgmem : g ∈ noteUnits fs p t := (hL ▸ hperm).subset (List.mem_of_find?_eq_some hg)
    have hgsub : isSub (encodeTs now) g.name = true := by
      have := List.find?_some hg
      rw [henc] at this
      simpa using this
    have hgU : g = U := by
      rcases hmax g hgmem hgsub with h | h
      · exact h
      · exfalso
        have hpw := pairwise_sortDescBy (fun f => f.name)
          (globNote (mkdirIfAbsent fs (sanitize p)) (sanitize p) (sanitize t))
        rw [hL] at hpw
        have hUmem' : U ∈ f₀ :: tl := (hL ▸ hperm).mem_iff.mpr hUunit
        have hfalse := find?_max_of_pairwise (fun f => f.name)
          (fun f => isSub (encodeTs (c' :: rest)) f.name) (f₀ :: tl) hpw g hg U hUmem'
          (by rw [henc]; exact hUsub)
        rw [hfalse] at h
        exact Bool.noConfusion h
    rw [retrieve_note_eq, hv]
    simp only [hL, hg, hgU]
    rw [extractTimestamp_generate hu, hv]

/-- C10 witness: with two stored versions of the note, retrieving by the first
version's reported timestamp string returns the first version's content. -/
theorem version_roundtrip_amended_witness :
    extractTimestamp (generate_filename (chars "Note") (chars "2025-01-01T10:00:00"))
      = decodeTs (encodeTs (chars "2025-01-01T10:00:00")) ∧
    encodeTs (decodeTs (encodeTs (chars "2025-01-01T10:00:00")))
      = encodeTs (chars "2025-01-01T10:00:00") ∧
    (retrieve_note fsTwoNotes (chars "P") (chars "Note")
        (some (decodeTs (encodeTs (chars "2025-01-01T10:00:00"))))).1
      = Except.ok (chars "v1", decodeTs (encodeTs (chars "2025-01-01T10:00:00"))) :=
  version_roundtrip_amended fsTwoNotes (chars "P") (chars "Note")
    (chars "2025-01-01T10:00:00") (chars "v1")
    (by decide) (by decide) (by decide) (by decide)

/-! Claim C1 (delete semantics — modelled from the spec). -/

/-- Equation: `delete_note` unfolded to an explicit form. -/
theorem delete_note_eq (fs : FS) (p t : Str) (v : Option Str) :
    delete_note fs p t v =
      (match v with
       | some ver =>
         (match (globNote (mkdirIfAbsent fs (sanitize p)) (sanitize p) (sanitize t)).find?
             (fun f => afterLastUnder (stem f.name) == encodeTs ver) with
          | some f => (Except.ok (1, [(sanitize p, f.name)]),
              removeFile (mkdirIfAbsent fs (sanitize p)) (sanitize p) f.name)
          | none => (Except.error (), mkdirIfAbsent fs (sanitize p)))
       | none =>
         if (globNote (mkdirIfAbsent fs (sanitize p)) (sanitize p) (sanitize t)).isEmpty then
           (Except.error (), mkdirIfAbsent fs (sanitize p))
         else
           (Except.ok ((globNote (mkdirIfAbsent fs (sanitize p)) (sanitize p) (sanitize t)).length,
              (globNote (mkdirIfAbsent fs (sanitize p)) (sanitize p) (sanitize t)).map
                (fun f => (sanitize p, f.name))),
            { mkdirIfAbsent fs (sanitize p) with
              files := (mkdirIfAbsent fs (sanitize p)).files.filter
                (fun f => !(f.dir == sanitize p && matchesNote (sanitize t) f.name)) })) := rfl

/-- C1: correctness of the (spec-modelled) delete operation.  With `version`
omitted: `NotFound` exactly when the note has zero units; otherwise every unit
of the note — and nothing else — is removed, and the returned pair carries the
count and the paths of the deleted units.  With `version` given: `NotFound`
when no unit's timestamp is exactly the encoded version; otherwise exactly the
one unit with that timestamp is removed (sibling versions and other notes are
untouched) and its path is returned with count 1. -/
theorem delete_note_correct (fs : FS) (p t : Str) :
    (noteUnits fs p t = [] → (delete_note fs p t none).1 = Except.error ()) ∧
    (noteUnits fs p t ≠ [] →
      (delete_note fs p t none).1
        = Except.ok ((noteUnits fs p t).length,
            (noteUnits fs p t).map (fun f => (sanitize p, f.name))) ∧
      ∀ f, f ∈ (delete_note fs p t none).2.files ↔
        (f ∈ fs.files ∧ ¬(f.dir = sanitize p ∧ matchesNote (sanitize t) f.name = true))) ∧
    (∀ v, (∀ u ∈ noteUnits fs p t, afterLastUnder (stem u.name) ≠ encodeTs v) →
      (delete_note fs p t (some v)).1 = Except.error ()) ∧
    (∀ v u, u ∈ noteUnits fs p t → afterLastUnder (stem u.name) = encodeTs v →
      (∀ u' ∈ noteUnits fs p t, afterLastUnder (stem u'.name) = encodeTs v → u' = u) →
      (delete_note fs p t (some v)).1 = Except.ok (1, [(sanitize p, u.name)]) ∧
      ∀ f, f ∈ (delete_note fs p t (some v)).2.files ↔
        (f ∈ fs.files ∧ ¬(f.dir = sanitize p ∧ f.name = u.name))) := by
  have hglob : globNote (mkdirIfAbsent fs (sanitize p)) (sanitize p) (sanitize t)
      = noteUnits fs p t := globNote_mkdir fs (sanitize p) (sanitize p) (sanitize t)
  refine ⟨?_, ?_, ?_, ?_⟩
  · intro h
    rw [delete_note_eq]
    simp only [hglob, h]
    rfl
  · intro h
    have hne : (noteUnits fs p t).isEmpty = false := by
      cases hc : noteUnits fs p t with
      | nil => exact absurd hc h
      | cons a l => rfl
    constructor
    · rw [delete_note_eq]
      simp only [hglob, hne]
      rfl
    · intro f
      rw [delete_note_eq]
      simp only [hglob, hne]
      simp only [Bool.false_eq_true, if_false, mkdirIfAbsent_files]
      rw [List.mem_filter]
      constructor
      · rintro ⟨h₁, h₂⟩
        refine ⟨h₁, fun hc => ?_⟩
        simp [hc.1, hc.2] at h₂
      · rintro ⟨h₁, h₂⟩
        refine ⟨h₁, ?_⟩
        rcases Bool.eq_false_or_eq_true
            (f.dir == sanitize p && matchesNote (sanitize t) f.name) with hb | hb
        · exfalso
          simp only [Bool.and_eq_true, beq_iff_eq] at hb
          exact h₂ ⟨hb.1, hb.2⟩
        · simp [hb]
  · intro v hall
    rw [delete_note_eq]
    have hnone : (globNote (mkdirIfAbsent fs (sanitize p)) (sanitize p) (sanitize t)).find?
        (fun f => afterLastUnder (stem f.name) == encodeTs v) = none := by
      rw [List.find?_eq_none]
      intro f hf
      rw [hglob] at hf
      simpa using hall f hf
    simp only [hnone]
  · intro v u hu hts huniq
    have hfind : ((globNote (mkdirIfAbsent fs (sanitize p)) (sanitize p) (sanitize t)).find?
        (fun f => afterLastUnder (stem f.name) == encodeTs v)).isSome := by
      rcases hfe : (globNote (mkdirIfAbsent fs (sanitize p)) (sanitize p) (sanitize t)).find?
          (fun f => afterLastUnder (stem f.name) == encodeTs v) with _ | g
      · rw [List.find?_eq_none] at hfe
        have := hfe u (hglob ▸ hu)
        simp [hts] at this
      · rw [hfe]; rfl
    rcases Option.isSome_iff_exists.mp hfind with ⟨g, hg⟩
    have hgu : g = u := by
      refine huniq g (hglob ▸ List.mem_of_find?_eq_some hg) ?_
      have := List.find?_some hg
      simpa using this
    constructor
    · rw [delete_note_eq]
      simp only [hg, hgu]
    · intro f
      rw [delete_note_eq]
      simp only [hg, hgu]
      show f ∈ (removeFile (mkdirIfAbsent fs (sanitize p)) (sanitize p) u.name).files ↔ _
      unfold removeFile
      simp only [mkdirIfAbsent_files]
      rw [List.mem_filter]
      constructor
      · rintro ⟨h₁, h₂⟩
        refine ⟨h₁, fun hc => ?_⟩
        simp [hc.1, hc.2] at h₂
      · rintro ⟨h₁, h₂⟩
        refine ⟨h₁, ?_⟩
        rcases Bool.eq_false_or_eq_true
            (f.dir == sanitize p && f.name == u.name) with hb | hb
        · exfalso
          simp only [Bool.and_eq_true, beq_iff_eq] at hb
          exact h₂ ⟨hb.1, hb.2⟩
        · simp [hb]

/-- C1 witness: in a state with two versions of `"Note"` plus another note,
delete-all removes both versions of `"Note"` (and only them) reporting count 2,
a versioned delete removes exactly the requested unit, and both `NotFound`
cases fire on the empty state. -/
theorem delete_note_correct_witness :
    ((delete_note fsTwoNotes (chars "P") (chars "Note") none).1
        = Except.ok (2, [(chars "P", chars "Note_2025-01-01T10-00-00.md"),
                         (chars "P", chars "Note_2025-01-02T11-30-00.md")]) ∧
      (⟨chars "P", chars "Other_2025-01-03T08-00-00.md", chars "x"⟩ : FSFile)
        ∈ (delete_note fsTwoNotes (chars "P") (chars "Note") none).2.files ∧
      ¬ (⟨chars "P", chars "Note_2025-01-01T10-00-00.md", chars "v1"⟩ : FSFile)
        ∈ (delete_note fsTwoNotes (chars "P") (chars "Note") none).2.files) ∧
    ((delete_note fsTwoNotes (chars "P") (chars "Note")
        (some (chars "2025:01:01T10:00:00"))).1
      = Except.ok (1, [(chars "P", chars "Note_2025-01-01T10-00-00.md")])) ∧
    ((delete_note fsEmpty (chars "P") (chars "Note") none).1 = Except.error ()) ∧
    ((delete_note fsEmpty (chars "P") (chars "Note")
        (some (chars "2025:01:01T10:00:00"))).1 = Except.error ()) := by
  have h := delete_note_correct fsTwoNotes (chars "P") (chars "Note")
  have hempty := delete_note_correct fsEmpty (chars "P") (chars "Note")
  refine ⟨⟨?_, ?_, ?_⟩, ?_, ?_, ?_⟩
  · have := (h.2.1 (by decide)).1
    rw [this]
    decide
  · exact ((h.2.1 (by decide)).2 _).mpr (by decide)
  · intro hc
    have := ((h.2.1 (by decide)).2 _).mp hc
    exact absurd this (by decide)
  · exact (h.2.2.2 (chars "2025:01:01T10:00:00")
      ⟨chars "P", chars "Note_2025-01-01T10-00-00.md", chars "v1"⟩
      (by decide) (by decide) (by decide)).1
  · exact hempty.1 (by decide)
  · exact hempty.2.2.1 (chars "2025:01:01T10:00:00") (by decide)

/-! Claim C8 (excerpt generation). -/

theorem isPre_nil_iff (q : Str) : isPre q [] = true ↔ q = [] := by
  cases q with
  | nil => simp [isPre]
  | cons c cs => simp [isPre]

/-- Function `findSub` returns the least index at which the needle is a prefix of the
remaining hay. -/
theorem findSub_some_of :
    ∀ (h : Str) (q : Str) (i : Nat), isPre q (h.drop i) = true →
      (∀ j < i, isPre q (h.drop j) = false) → findSub q h = some i
  | [], q, i, h₁, h₂ => by
    have hq : q = [] := by
      rw [List.drop_nil] at h₁
      exact (isPre_nil_iff q).mp h₁
    have hi : i = 0 := by
      by_contra hne
      have h0 := h₂ 0 (Nat.pos_of_ne_zero hne)
      rw [List.drop_nil] at h0
      rw [(isPre_nil_iff q).mpr hq] at h0
      exact Bool.noConfusion h0
    subst hq hi
    rfl
  | c :: t, q, 0, h₁, _ => by
    rw [List.drop_zero] at h₁
    simp [findSub, h₁]
  | c :: t, q, i + 1, h₁, h₂ => by
    have h0 := h₂ 0 (Nat.succ_pos i)
    rw [List.drop_zero] at h0
    have ht : findSub q t = some i := by
      refine findSub_some_of t q i ?_ ?_
      · simpa using h₁
      · intro j hj
        have := h₂ (j + 1) (Nat.succ_lt_succ hj)
        simpa using this
    simp [findSub, h0, ht]

theorem findSub_none_of :
    ∀ (h : Str) (q : Str), (∀ j, isPre q (h.drop j) = false) → findSub q h = none
  | [], q, hall => by
    have h0 := hall 0
    rw [List.drop_nil] at h0
    have : ¬ q = [] := fun hq => by
      rw [(isPre_nil_iff q).mpr hq] at h0
      exact Bool.noConfusion h0
    cases q with
    | nil => exact absurd rfl this
    | cons c cs => rfl
  | c :: t, q, hall => by
    have h0 := hall 0
    rw [List.drop_zero] at h0
    have ht : findSub q t = none :=
      findSub_none_of t q (fun j => by simpa using hall (j + 1))
    simp [findSub, h0, ht]

/-- A bounded no-occurrence hypothesis extends to all indices: beyond the
length the remaining hay is empty, as it already is at the length itself. -/
theorem no_occurrence_of_bounded (h q : Str)
    (hb : ∀ j ≤ h.length, isPre q (h.drop j) = false) :
    ∀ j, isPre q (h.drop j) = false := by
  intro j
  rcases le_or_lt j h.length with hj | hj
  · exact hb j hj
  · have hnil : h.drop j = [] := List.drop_eq_nil_of_le (Nat.le_of_lt hj)
    have hlen := hb h.length (Nat.le_refl _)
    rw [List.drop_length] at hlen
    rw [hnil]
    exact hlen

/-- C8: excerpt generation.  When the lowercased query occurs nowhere in the
lowercased content (stated up to the content's length, which covers all
indices), the excerpt is the first 300 characters with `"..."` appended iff
the content is longer than 300.  When `i` is the FIRST index of a
case-insensitive occurrence, the excerpt is the window from 150 characters
before the match to `150 + len(query)` characters after its start, clamped to
the content, prefixed with `"..."` iff the window does not start at 0 and
suffixed with `"..."` iff it does not reach the content's end. -/
theorem excerpt_correct (content query : Str) :
    ((∀ j ≤ (lowerStr content).length,
        isPre (lowerStr query) ((lowerStr content).drop j) = false) →
      generate_excerpt content query
        = content.take 300 ++ (if 300 < content.length then chars "..." else [])) ∧
    (∀ i, isPre (lowerStr query) ((lowerStr content).drop i) = true →
      (∀ j < i, isPre (lowerStr query) ((lowerStr content).drop j) = false) →
      generate_excerpt content query
        = (if 0 < i - 150 then chars "..." else [])
          ++ ((content.take (min content.length (i + query.length + 150))).drop (i - 150))
          ++ (if min content.length (i + query.length + 150) < content.length
              then chars "..." else [])) := by
  constructor
  · intro hb
    have hnone : findSub (lowerStr query) (lowerStr content) = none :=
      findSub_none_of _ _ (no_occurrence_of_bounded _ _ hb)
    unfold generate_excerpt
    rw [hnone]
  · intro i h₁ h₂
    have hsome : findSub (lowerStr query) (lowerStr content) = some i :=
      findSub_some_of _ _ i h₁ h₂
    unfold generate_excerpt
    rw [hsome]
    simp only
    by_cases hstart : 0 < i - 150 <;>
      by_cases hstop : min content.length (i + query.length + 150) < content.length <;>
        simp [hstart, hstop, List.append_assoc]

/-- C8 witness: both branches exercised — a match at index 6 inside a short
content (no truncation markers) and a query with no occurrence. -/
theorem excerpt_correct_witness :
    generate_excerpt (chars "hello world") (chars "WORLD")
      = (if 0 < 6 - 150 then chars "..." else [])
        ++ (((chars "hello world").take
              (min (chars "hello world").length (6 + (chars "WORLD").length + 150))).drop
            (6 - 150))
        ++ (if min (chars "hello world").length (6 + (chars "WORLD").length + 150)
              < (chars "hello world").length then chars "..." else []) ∧
    generate_excerpt (chars "abc") (chars "zzz")
      = (chars "abc").take 300 ++ (if 300 < (chars "abc").length then chars "..." else []) :=
  ⟨(excerpt_correct (chars "hello world") (chars "WORLD")).2 6 (by decide) (by decide),
   (excerpt_correct (chars "abc") (chars "zzz")).1 (by decide)⟩

/-! Claim C7 (lexical search): sort lemmas for the score-descending stable sort. -/

theorem mem_insertScoreDesc (x : SearchResult) :
    ∀ (l : List SearchResult) (z), z ∈ insertScoreDesc x l ↔ z = x ∨ z ∈ l
  | [], z => by simp [insertScoreDesc]
  | y :: ys, z => by
    simp only [insertScoreDesc]
    split
    · exact List.mem_cons
    · simp only [List.mem_cons, mem_insertScoreDesc x ys z]
      tauto

theorem insertScoreDesc_perm (x : SearchResult) :
    ∀ l : List SearchResult, (insertScoreDesc x l).Perm (x :: l)
  | [] => List.Perm.refl _
  | y :: ys => by
    simp only [insertScoreDesc]
    split
    · exact List.Perm.refl _
    · exact ((insertScoreDesc_perm x ys).cons y).trans (List.Perm.swap x y ys)

theorem sortScoreDesc_perm :
    ∀ l : List SearchResult, (sortScoreDesc l).Perm l
  | [] => List.Perm.refl _
  | x :: xs =>
    (insertScoreDesc_perm x (sortScoreDesc xs)).trans ((sortScoreDesc_perm xs).cons x)

theorem pairwise_insertScoreDesc (x : SearchResult) :
    ∀ l : List SearchResult, l.Pairwise (fun a b => b.score ≤ a.score) →
      (insertScoreDesc x l).Pairwise (fun a b => b.score ≤ a.score)
  | [], _ => List.pairwise_singleton _ _
  | y :: ys, hp => by
    rcases List.pairwise_cons.mp hp with ⟨hy, hys⟩
    simp only [insertScoreDesc]
    split
    · rename_i hle
      refine List.pairwise_cons.mpr ⟨?_, hp⟩
      intro z hz
      rcases List.mem_cons.mp hz with rfl | hz
      · exact hle
      · exact le_trans (hy z hz) hle
    · rename_i hnle
      refine List.pairwise_cons.mpr ⟨?_, pairwise_insertScoreDesc x ys hys⟩
      intro z hz
      rcases (mem_insertScoreDesc x ys z).mp hz with rfl | hz
      · exact le_of_not_le hnle
      · exact hy z hz

theorem pairwise_sortScoreDesc :
    ∀ l : List SearchResult, (sortScoreDesc l).Pairwise (fun a b => b.score ≤ a.score)
  | [] => List.Pairwise.nil
  | x :: xs => pairwise_insertScoreDesc x (sortScoreDesc xs) (pairwise_sortScoreDesc xs)

theorem filter_insertScoreDesc_eq (x : SearchResult) (s : ℚ) (hx : x.score = s) :
    ∀ l : List SearchResult,
      (insertScoreDesc x l).filter (fun r => r.score == s)
        = x :: l.filter (fun r => r.score == s)
  | [] => by simp [insertScoreDesc, List.filter_cons, hx]
  | y :: ys => by
    simp only [insertScoreDesc]
    split
    · simp [List.filter_cons, hx]
    · rename_i hnle
      have hy : (y.score == s) = false := by
        have : s < y.score := hx ▸ lt_of_not_le hnle
        simpa using ne_of_gt this
      rw [List.filter_cons, List.filter_cons]
      simp only [hy]
      simp only [Bool.false_eq_true, if_false]
      exact filter_insertScoreDesc_eq x s hx ys

theorem filter_insertScoreDesc_ne (x : SearchResult) (s : ℚ) (hx : x.score ≠ s) :
    ∀ l : List SearchResult,
      (insertScoreDesc x l).filter (fun r => r.score == s)
        = l.filter (fun r => r.score == s)
  | [] => by simp [insertScoreDesc, List.filter_cons, hx]
  | y :: ys => by
    simp only [insertScoreDesc]
    split
    · simp [List.filter_cons, hx]
    · rw [List.filter_cons, List.filter_cons, filter_insertScoreDesc_ne x s hx ys]

theorem filter_sortScoreDesc (s : ℚ) :
    ∀ l : List SearchResult,
      (sortScoreDesc l).filter (fun r => r.score == s)
        = l.filter (fun r => r.score == s)
  | [] => rfl
  | x :: xs => by
    show (insertScoreDesc x (sortScoreDesc xs)).filter _ = _
    by_cases hx : x.score = s
    · rw [filter_insertScoreDesc_eq x s hx, filter_sortScoreDesc s xs, List.filter_cons]
      simp [hx]
    · rw [filter_insertScoreDesc_ne x s hx, filter_sortScoreDesc s xs, List.filter_cons]
      simp [hx]

/-- Membership in the candidate list, characterized against the index. -/
theorem mem_searchCandidates (pr : Str → Str → ℚ) (idx : Index) (q : Str)
    (projs : List Str) (thr : ℚ) (r : SearchResult) :
    r ∈ searchCandidates pr idx q projs thr ↔
      ∃ p, p ∈ projs ∧ ∃ notes, lookupProj idx p = some notes ∧
        ∃ tn, tn ∈ notes ∧
          thr ≤ max (pr (lowerStr q) (lowerStr tn.1))
                    (pr (lowerStr q) (lowerStr tn.2.content)) ∧
          r = ⟨p, tn.1, tn.2.content,
               max (pr (lowerStr q) (lowerStr tn.1))
                   (pr (lowerStr q) (lowerStr tn.2.content)),
               generate_excerpt tn.2.content q⟩ := by
  unfold searchCandidates
  rw [List.mem_flatten]
  constructor
  · rintro ⟨l, hl, hr⟩
    rcases List.mem_map.mp hl with ⟨p, hp, rfl⟩
    refine ⟨p, hp, ?_⟩
    cases hlp : lookupProj idx p with
    | none => rw [hlp] at hr; simp at hr
    | some notes =>
      rw [hlp] at hr
      rcases List.mem_filterMap.mp hr with ⟨tn, htn, hg⟩
      refine ⟨notes, rfl, tn, htn, ?_⟩
      by_cases hth : thr ≤ max (pr (lowerStr q) (lowerStr tn.1))
          (pr (lowerStr q) (lowerStr tn.2.content))
      · rw [if_pos hth] at hg
        exact ⟨hth, (Option.some_inj.mp hg).symm⟩
      · rw [if_neg hth] at hg
        exact Option.noConfusion hg
  · rintro ⟨p, hp, notes, hlp, tn, htn, hth, rfl⟩
    refine ⟨_, List.mem_map_of_mem _ hp, ?_⟩
    rw [hlp]
    exact List.mem_filterMap.mpr ⟨tn, htn, by rw [if_pos hth]⟩

/-- C7: lexical search scores each indexed note of the searched projects as the
maximum of the fuzzy score of the lowercased query against the lowercased
title and against the lowercased full content, includes a note exactly when
that best score reaches the threshold (so a score equal to the threshold is in
and anything below is out), and returns the results sorted by score descending
with ties kept in the original iteration order (the scorer `pr` stands for the
external `rapidfuzz` partial-ratio float, the threshold defaulting to 60 at
the call sites). -/
theorem search_spec (pr : Str → Str → ℚ) (idx : Index) (q : Str)
    (proj : Option Str) (thr : ℚ) :
    (∀ r, r ∈ search pr idx q proj thr ↔
      ∃ p, p ∈ projectsToSearch idx proj ∧
        ∃ notes, lookupProj idx p = some notes ∧
          ∃ tn, tn ∈ notes ∧
            thr ≤ max (pr (lowerStr q) (lowerStr tn.1))
                      (pr (lowerStr q) (lowerStr tn.2.content)) ∧
            r = ⟨p, tn.1, tn.2.content,
                 max (pr (lowerStr q) (lowerStr tn.1))
                     (pr (lowerStr q) (lowerStr tn.2.content)),
                 generate_excerpt tn.2.content q⟩) ∧
    (search pr idx q proj thr).Pairwise (fun a b => b.score ≤ a.score) ∧
    (∀ s : ℚ, (search pr idx q proj thr).filter (fun r => r.score == s)
      = (searchCandidates pr idx q (projectsToSearch idx proj) thr).filter
          (fun r => r.score == s)) := by
  refine ⟨?_, ?_, ?_⟩
  · intro r
    rw [show search pr idx q proj thr
        = sortScoreDesc (searchCandidates pr idx q (projectsToSearch idx proj) thr) from rfl]
    rw [(sortScoreDesc_perm _).mem_iff]
    exact mem_searchCandidates pr idx q (projectsToSearch idx proj) thr r
  · exact pairwise_sortScoreDesc _
  · intro s
    exact filter_sortScoreDesc s _

/-- C7 witness: with a constant scorer of 80 and the default threshold 60, the
single indexed note is returned, scored 80. -/
theorem search_spec_witness :
    (⟨chars "P", chars "Note", chars "body", 80,
        generate_excerpt (chars "body") (chars "q")⟩ : SearchResult)
      ∈ search (fun _ _ => (80 : ℚ)) idxOne (chars "q") none 60 :=
  ((search_spec (fun _ _ => (80 : ℚ)) idxOne (chars "q") none 60).1 _).mpr
    ⟨chars "P", by decide,
     [(chars "Note",
       ⟨chars "body", chars "2025:01:01T10:00:00", (chars "P", chars "f.md")⟩)], rfl,
     (chars "Note",
       ⟨chars "body", chars "2025:01:01T10:00:00", (chars "P", chars "f.md")⟩),
     by decide, by norm_num, by norm_num⟩

/-! Claim C6 (index rebuild): laws of the grouping fold and the dict inserts. -/

theorem latestLookup_nil (k : Str × Str) : latestLookup [] k = none := rfl

theorem latestLookup_cons_pos (k₁ : Str × Str) (e₁ : NoteRef)
    (rest : List ((Str × Str) × NoteRef)) (k : Str × Str) (h : k₁ = k) :
    latestLookup ((k₁, e₁) :: rest) k = some e₁ := by
  rw [latestLookup, List.find?_cons_of_pos _ (by simpa using h)]
  rfl

theorem latestLookup_cons_neg (k₁ : Str × Str) (e₁ : NoteRef)
    (rest : List ((Str × Str) × NoteRef)) (k : Str × Str) (h : k₁ ≠ k) :
    latestLookup ((k₁, e₁) :: rest) k = latestLookup rest k := by
  rw [latestLookup, List.find?_cons_of_neg _ (by simpa using h)]
  rfl

theorem latestInsert_cons_pos (k₁ : Str × Str) (e₁ : NoteRef)
    (rest : List ((Str × Str) × NoteRef)) (n : NoteRef) (h : k₁ = (n.project, n.title)) :
    latestInsert ((k₁, e₁) :: rest) n =
      (if strLt e₁.timestamp n.timestamp then (k₁, n) :: rest else (k₁, e₁) :: rest) := by
  simp [latestInsert, h]

theorem latestInsert_cons_neg (k₁ : Str × Str) (e₁ : NoteRef)
    (rest : List ((Str × Str) × NoteRef)) (n : NoteRef) (h : k₁ ≠ (n.project, n.title)) :
    latestInsert ((k₁, e₁) :: rest) n = (k₁, e₁) :: latestInsert rest n := by
  simp [latestInsert, h]

theorem latestLookup_insert (n : NoteRef) (k : Str × Str) :
    ∀ m : List ((Str × Str) × NoteRef),
      latestLookup (latestInsert m n) k =
        if k = noteKey n then
          (match latestLookup m k with
           | none => some n
           | some e => some (if strLt e.timestamp n.timestamp then n else e))
        else latestLookup m k
  | [] => by
    by_cases hk : k = noteKey n
    · rw [if_pos hk]
      rw [show latestInsert [] n = [((n.project, n.title), n)] from rfl]
      rw [latestLookup_cons_pos _ _ _ _ (by rw [hk]; rfl)]
      rfl
    · rw [if_neg hk]
      rw [show latestInsert [] n = [((n.project, n.title), n)] from rfl]
      rw [latestLookup_cons_neg _ _ _ _ (fun hc => hk (by rw [← hc]; rfl))]
  | (k₁, e₁) :: rest => by
    by_cases h₁ : k₁ = (n.project, n.title)
    · rw [latestInsert_cons_pos _ _ _ _ h₁]
      by_cases hk : k = k₁
      · have hkn : k = noteKey n := hk.trans h₁
        rw [if_pos hkn, latestLookup_cons_pos _ _ _ _ hk.symm]
        by_cases hts : strLt e₁.timestamp n.timestamp = true
        · rw [if_pos hts, latestLookup_cons_pos _ _ _ _ hk.symm]
          simp [hts]
        · rw [if_neg hts, latestLookup_cons_pos _ _ _ _ hk.symm]
          simp [Bool.eq_false_iff.mpr hts]
      · have hkn : k ≠ noteKey n := fun hc => hk (hc.trans h₁.symm)
        rw [if_neg hkn, latestLookup_cons_neg _ _ _ _ (fun hc => hk hc.symm)]
        by_cases hts : strLt e₁.timestamp n.timestamp = true
        · rw [if_pos hts, latestLookup_cons_neg _ _ _ _ (fun hc => hk hc.symm)]
        · rw [if_neg hts, latestLookup_cons_neg _ _ _ _ (fun hc => hk hc.symm)]
    · rw [latestInsert_cons_neg _ _ _ _ h₁]
      by_cases hk : k = k₁
      · have hkn : k ≠ noteKey n := fun hc => h₁ (hk.symm.trans hc)
        rw [if_neg hkn, latestLookup_cons_pos _ _ _ _ hk.symm,
          latestLookup_cons_pos _ _ _ _ hk.symm]
      · rw [latestLookup_cons_neg _ _ _ _ (fun hc => hk hc.symm),
          latestLookup_cons_neg _ _ _ _ (fun hc => hk hc.symm),
          latestLookup_insert n k rest]

theorem latestInsert_keys (n : NoteRef) :
    ∀ m : List ((Str × Str) × NoteRef),
      (latestInsert m n).map (fun kn => kn.1) =
        if noteKey n ∈ m.map (fun kn => kn.1) then m.map (fun kn => kn.1)
        else m.map (fun kn => kn.1) ++ [noteKey n]
  | [] => by simp [latestInsert, noteKey]
  | (k₁, e₁) :: rest => by
    by_cases h₁ : k₁ = (n.project, n.title)
    · rw [latestInsert_cons_pos _ _ _ _ h₁]
      have hmem : noteKey n ∈ ((k₁, e₁) :: rest).map (fun kn => kn.1) := by
        simp only [List.map_cons, List.mem_cons]
        exact Or.inl h₁.symm
      rw [if_pos hmem]
      split <;> rfl
    · rw [latestInsert_cons_neg _ _ _ _ h₁]
      have hiff : (noteKey n ∈ ((k₁, e₁) :: rest).map (fun kn => kn.1))
          ↔ (noteKey n ∈ rest.map (fun kn => kn.1)) := by
        simp only [List.map_cons, List.mem_cons]
        constructor
        · rintro (hc | hm)
          · exact absurd hc.symm h₁
          · exact hm
        · exact Or.inr
      by_cases hmem : noteKey n ∈ rest.map (fun kn => kn.1)
      · rw [if_pos (hiff.mpr hmem)]
        simp only [List.map_cons]
        rw [latestInsert_keys n rest, if_pos hmem]
      · rw [if_neg (fun hc => hmem (hiff.mp hc))]
        simp only [List.map_cons]
        rw [latestInsert_keys n rest, if_neg hmem]
        rfl

theorem latestNotes_append (notes : List NoteRef) (n : NoteRef) :
    latestNotes (notes ++ [n]) = latestInsert (latestNotes notes) n := by
  unfold latestNotes
  rw [List.foldl_append]
  rfl

/-- The grouping fold of `rebuild_index` keeps, for each `(project, title)`
key that occurs, exactly one entry: an occurrence of that key whose timestamp
no other occurrence strictly exceeds (ties keep the first occurrence). -/
theorem latestNotes_spec (notes : List NoteRef) :
    (((latestNotes notes).map (fun kn => kn.1)).Nodup) ∧
    (∀ k, k ∈ (latestNotes notes).map (fun kn => kn.1) ↔ k ∈ notes.map noteKey) ∧
    (∀ k e, latestLookup (latestNotes notes) k = some e →
      e ∈ notes ∧ noteKey e = k ∧
      ∀ m ∈ notes, noteKey m = k → strLt e.timestamp m.timestamp = false) ∧
    (∀ k, latestLookup (latestNotes notes) k = none → ∀ m ∈ notes, noteKey m ≠ k) := by
  induction notes using List.reverseRecOn with
  | nil =>
    refine ⟨List.Pairwise.nil, by simp [latestNotes], ?_, ?_⟩
    · intro k e he
      exact Option.noConfusion (he.symm.trans (latestLookup_nil k))
    · intro k _ m hm
      exact absurd hm (List.not_mem_nil m)
  | append_singleton l n ih =>
    obtain ⟨ih₁, ih₂, ih₃, ih₄⟩ := ih
    rw [latestNotes_append]
    refine ⟨?_, ?_, ?_, ?_⟩
    · rw [latestInsert_keys]
      by_cases hmem : noteKey n ∈ (latestNotes l).map (fun kn => kn.1)
      · rw [if_pos hmem]; exact ih₁
      · rw [if_neg hmem]
        rw [List.nodup_append]
        exact ⟨ih₁, List.nodup_singleton _, fun a ha hb => hmem ((List.mem_singleton.mp hb) ▸ ha)⟩
    · intro k
      rw [latestInsert_keys]
      by_cases hmem : noteKey n ∈ (latestNotes l).map (fun kn => kn.1)
      · rw [if_pos hmem]
        rw [List.map_append, List.mem_append]
        constructor
        · intro h; exact Or.inl ((ih₂ k).mp h)
        · rintro (h | h)
          · exact (ih₂ k).mpr h
          · rw [show (List.map noteKey [n]) = [noteKey n] from rfl, List.mem_singleton] at h
            exact h ▸ hmem
      · rw [if_neg hmem]
        rw [List.mem_append, List.map_append, List.mem_append]
        rw [ih₂ k]
        rfl
    · intro k e he
      rw [latestLookup_insert] at he
      by_cases hk : k = noteKey n
      · rw [if_pos hk] at he
        cases hL : latestLookup (latestNotes l) k with
        | none =>
          rw [hL] at he
          simp only [] at he
          have hen : e = n := Option.some_inj.mp he.symm
          subst hen
          refine ⟨List.mem_append_right _ (List.mem_singleton.mpr rfl), hk.symm, ?_⟩
          intro m hm hmk
          rcases List.mem_append.mp hm with hm | hm
          · exact absurd hmk (ih₄ k hL m hm)
          · rw [List.mem_singleton.mp hm]
            exact strLt_irrefl _
        | some e₀ =>
          rw [hL] at he
          simp only [] at he
          obtain ⟨he₀, hke₀, hmax₀⟩ := ih₃ k e₀ hL
          by_cases hts : strLt e₀.timestamp n.timestamp = true
          · rw [if_pos hts] at he
            have hen : e = n := Option.some_inj.mp he.symm
            subst hen
            refine ⟨List.mem_append_right _ (List.mem_singleton.mpr rfl), hk.symm, ?_⟩
            intro m hm hmk
            rcases List.mem_append.mp hm with hm | hm
            · rcases Bool.eq_false_or_eq_true (strLt e.timestamp m.timestamp) with hb | hb
              · exact absurd (strLt_trans hts hb) (by simp [hmax₀ m hm hmk])
              · exact hb
            · rw [List.mem_singleton.mp hm]
              exact strLt_irrefl _
          · rw [if_neg hts] at he
            have hen : e = e₀ := Option.some_inj.mp he.symm
            subst hen
            refine ⟨List.mem_append_left _ he₀, hke₀, ?_⟩
            intro m hm hmk
            rcases List.mem_append.mp hm with hm | hm
            · exact hmax₀ m hm hmk
            · rw [List.mem_singleton.mp hm]
              exact Bool.eq_false_iff.mpr hts
      · rw [if_neg hk] at he
        obtain ⟨he₀, hke₀, hmax₀⟩ := ih₃ k e he
        refine ⟨List.mem_append_left _ he₀, hke₀, ?_⟩
        intro m hm hmk
        rcases List.mem_append.mp hm with hm | hm
        · exact hmax₀ m hm hmk
        · rw [List.mem_singleton.mp hm] at hmk
          exact absurd hmk.symm hk
    · intro k he m hm
      rw [latestLookup_insert] at he
      by_cases hk : k = noteKey n
      · rw [if_pos hk] at he
        cases hL : latestLookup (latestNotes l) k with
        | none =>
          rw [hL] at he
          simp only [] at he
          exact Option.noConfusion he
        | some e₀ =>
          rw [hL] at he
          simp only [] at he
          by_cases hts : strLt e₀.timestamp n.timestamp = true
          · rw [if_pos hts] at he; exact Option.noConfusion he
          · rw [if_neg hts] at he; exact Option.noConfusion he
      · rw [if_neg hk] at he
        rcases List.mem_append.mp hm with hm | hm
        · exact ih₄ k he m hm
        · rw [List.mem_singleton.mp hm]
          exact fun hc => hk hc.symm

theorem latestLookup_isSome_iff (k : Str × Str) :
    ∀ m : List ((Str × Str) × NoteRef),
      (latestLookup m k).isSome ↔ k ∈ m.map (fun kn => kn.1)
  | [] => by simp [latestLookup_nil]
  | (k₁, e₁) :: rest => by
    by_cases hk : k₁ = k
    · rw [latestLookup_cons_pos _ _ _ _ hk]
      simp only [Option.isSome_some, List.map_cons, List.mem_cons, true_iff]
      exact Or.inl hk.symm
    · rw [latestLookup_cons_neg _ _ _ _ hk]
      rw [latestLookup_isSome_iff k rest]
      simp only [List.map_cons, List.mem_cons]
      constructor
      · exact Or.inr
      · rintro (hc | hm)
        · exact absurd hc.symm hk
        · exact hm

theorem lookup2_cons_pos (q : Str) (notes : List (Str × IndexEntry)) (rest : Index)
    (p t : Str) (h : q = p) :
    lookup2 ((q, notes) :: rest) p t
      = (notes.find? (fun x => x.1 == t)).map (fun x => x.2) := by
  unfold lookup2 lookupProj
  rw [List.find?_cons_of_pos _ (by simpa using h)]
  rfl

theorem lookup2_cons_neg (q : Str) (notes : List (Str × IndexEntry)) (rest : Index)
    (p t : Str) (h : q ≠ p) :
    lookup2 ((q, notes) :: rest) p t = lookup2 rest p t := by
  unfold lookup2 lookupProj
  rw [List.find?_cons_of_neg _ (by simpa using h)]

theorem titleInsert_find (t : Str) (e : IndexEntry) (t' : Str) :
    ∀ notes : List (Str × IndexEntry),
      ((titleInsert notes t e).find? (fun x => x.1 == t')).map (fun x => x.2)
        = if t' = t then some e
          else (notes.find? (fun x => x.1 == t')).map (fun x => x.2)
  | [] => by
    by_cases h : t' = t
    · rw [if_pos h]
      show ([(t, e)].find? (fun x => x.1 == t')).map (fun x => x.2) = some e
      rw [List.find?_cons_of_pos _ (by simpa using h.symm)]
      rfl
    · rw [if_neg h]
      show ([(t, e)].find? (fun x => x.1 == t')).map (fun x => x.2) = _
      rw [List.find?_cons_of_neg _ (by simpa using fun hc => h hc.symm)]
  | (s, d) :: rest => by
    by_cases hs : s = t
    · rw [show titleInsert ((s, d) :: rest) t e = (s, e) :: rest by simp [titleInsert, hs]]
      by_cases h' : t' = s
      · rw [if_pos (h'.trans hs)]
        rw [List.find?_cons_of_pos _ (by simpa using h'.symm)]
        rfl
      · rw [if_neg (fun hc => h' (hc.trans hs.symm))]
        rw [List.find?_cons_of_neg _ (by simpa using fun hc => h' hc.symm),
          List.find?_cons_of_neg _ (by simpa using fun hc => h' hc.symm)]
    · rw [show titleInsert ((s, d) :: rest) t e = (s, d) :: titleInsert rest t e by
        simp [titleInsert, hs]]
      by_cases h' : t' = s
      · rw [if_neg (fun hc => hs (h'.symm.trans hc))]
        rw [List.find?_cons_of_pos _ (by simpa using h'.symm),
          List.find?_cons_of_pos _ (by simpa using h'.symm)]
      · rw [List.find?_cons_of_neg _ (by simpa using fun hc => h' hc.symm),
          List.find?_cons_of_neg _ (by simpa using fun hc => h' hc.symm)]
        exact titleInsert_find t e t' rest

theorem indexInsert_lookup2 (p t : Str) (e : IndexEntry) (p' t' : Str) :
    ∀ idx : Index,
      lookup2 (indexInsert idx p t e) p' t'
        = if p' = p ∧ t' = t then some e else lookup2 idx p' t'
  | [] => by
    by_cases hp : p' = p
    · rw [show indexInsert [] p t e = [(p, [(t, e)])] from rfl,
        lookup2_cons_pos _ _ _ _ _ hp.symm]
      by_cases ht : t' = t
      · rw [if_pos ⟨hp, ht⟩]
        rw [List.find?_cons_of_pos _ (by simpa using ht.symm)]
        rfl
      · rw [if_neg (fun hc => ht hc.2)]
        rw [List.find?_cons_of_neg _ (by simpa using fun hc => ht hc.symm)]
        rfl
    · rw [show indexInsert [] p t e = [(p, [(t, e)])] from rfl,
        lookup2_cons_neg _ _ _ _ _ (fun hc => hp hc.symm)]
      rw [if_neg (fun hc => hp hc.1)]
  | (q, notes) :: rest => by
    by_cases hq : q = p
    · rw [show indexInsert ((q, notes) :: rest) p t e = (q, titleInsert notes t e) :: rest by
        simp [indexInsert, hq]]
      by_cases hp : p' = q
      · rw [lookup2_cons_pos _ _ _ _ _ hp.symm, titleInsert_find]
        by_cases ht : t' = t
        · rw [if_pos ht, if_pos ⟨hp.trans hq, ht⟩]
        · rw [if_neg ht, if_neg (fun hc => ht hc.2), lookup2_cons_pos _ _ _ _ _ hp.symm]
      · rw [lookup2_cons_neg _ _ _ _ _ (fun hc => hp hc.symm),
          if_neg (fun hc => hp (hc.1.trans hq.symm)),
          lookup2_cons_neg _ _ _ _ _ (fun hc => hp hc.symm)]
    · rw [show indexInsert ((q, notes) :: rest) p t e = (q, notes) :: indexInsert rest p t e by
        simp [indexInsert, hq]]
      by_cases hp : p' = q
      · rw [lookup2_cons_pos _ _ _ _ _ hp.symm,
          if_neg (fun hc => hq (hp.symm.trans hc.1)),
          lookup2_cons_pos _ _ _ _ _ hp.symm]
      · rw [lookup2_cons_neg _ _ _ _ _ (fun hc => hp hc.symm),
          lookup2_cons_neg _ _ _ _ _ (fun hc => hp hc.symm)]
        exact indexInsert_lookup2 p t e p' t' rest

/-- Folding `indexInsert` over a key-nodup association list: the final lookup
finds the (unique) entry with that key, if any. -/
theorem foldl_indexInsert_lookup2 (mk : (Str × Str) × NoteRef → IndexEntry) (p t : Str) :
    ∀ (latest : List ((Str × Str) × NoteRef)) (acc : Index),
      ((latest.map (fun kn => kn.1)).Nodup) →
      lookup2 (latest.foldl (fun idx kn => indexInsert idx kn.1.1 kn.1.2 (mk kn)) acc) p t
        = (match latest.find? (fun kn => kn.1 == (p, t)) with
           | some kn => some (mk kn)
           | none => lookup2 acc p t)
  | [], acc, _ => rfl
  | kn₀ :: rest, acc, hnd => by
    have hnd' : ((rest.map (fun kn => kn.1)).Nodup) := (List.nodup_cons.mp hnd).2
    have hnotin : kn₀.1 ∉ rest.map (fun kn => kn.1) := (List.nodup_cons.mp hnd).1
    show lookup2 (rest.foldl _ (indexInsert acc kn₀.1.1 kn₀.1.2 (mk kn₀))) p t = _
    rw [foldl_indexInsert_lookup2 mk p t rest _ hnd']
    by_cases hk : kn₀.1 = (p, t)
    · rw [List.find?_cons_of_pos _ (by simpa using hk)]
      have hrest : rest.find? (fun kn => kn.1 == (p, t)) = none := by
        rw [List.find?_eq_none]
        intro kn hkn
        simp only [beq_iff_eq]
        intro hc
        exact hnotin (hk ▸ hc ▸ List.mem_map_of_mem (fun kn => kn.1) hkn)
      rw [hrest]
      rw [indexInsert_lookup2]
      rw [if_pos ⟨congrArg Prod.fst hk.symm ▸ rfl, congrArg Prod.snd hk.symm ▸ rfl⟩]
    · rw [List.find?_cons_of_neg _ (by simpa using hk)]
      cases hrest : rest.find? (fun kn => kn.1 == (p, t)) with
      | some kn => rfl
      | none =>
        rw [indexInsert_lookup2]
        rw [if_neg (fun hc => hk (Prod.ext_iff.mpr ⟨hc.1.symm, hc.2.symm⟩))]

theorem lookup2_nil (p t : Str) : lookup2 [] p t = none := rfl

/-- Every record produced by `get_all_notes` points at an existing file, so
reading its content succeeds. -/
theorem read_note_content_isSome (fs : FS) (n : NoteRef) (h : n ∈ get_all_notes fs) :
    (read_note_content fs n.path).isSome := by
  unfold get_all_notes at h
  rw [List.mem_flatten] at h
  obtain ⟨l, hl, hn⟩ := h
  rcases List.mem_map.mp hl with ⟨d, hd, rfl⟩
  rcases List.mem_filterMap.mp hn with ⟨f, hf, hparse⟩
  have hff := List.mem_filter.mp hf
  have hfdir : f.dir = d := by
    have h2 := hff.2
    simp only [Bool.and_eq_true, beq_iff_eq] at h2
    exact h2.1
  cases hp : parseStem (stem f.name) with
  | none =>
    rw [hp] at hparse
    exact Option.noConfusion hparse
  | some tt =>
    rw [hp] at hparse
    obtain ⟨title, ts⟩ := tt
    simp only [] at hparse
    have hnpath : n.path = (d, f.name) := by
      rw [← Option.some_inj.mp hparse]
    rw [hnpath]
    unfold read_note_content
    have hfq : (List.find? (fun g => g.dir == (d, f.name).1 && g.name == (d, f.name).2)
        fs.files).isSome :=
      List.find?_isSome.mpr ⟨f, hff.1, by simp [hfdir]⟩
    rcases Option.isSome_iff_exists.mp hfq with ⟨g, hg⟩
    rw [hg]
    rfl

/-- C6: after `rebuild_index`, the index maps exactly those `(project, title)`
pairs that have at least one unit in the store: the reported count is the
number of distinct such pairs; a lookup succeeds iff some unit of that note
exists; and every entry carries the timestamp, path and (read) content of a
unit of that note whose timestamp no other unit of the same note strictly
exceeds — no stale, missing, or extra entries. -/
theorem rebuild_index_exact (fs : FS) :
    ((rebuild_index fs).1 = ((get_all_notes fs).map noteKey).dedup.length) ∧
    (∀ p t, (lookup2 (rebuild_index fs).2 p t).isSome ↔
      ∃ n ∈ get_all_notes fs, n.project = p ∧ n.title = t) ∧
    (∀ p t e, lookup2 (rebuild_index fs).2 p t = some e →
      ∃ n ∈ get_all_notes fs, n.project = p ∧ n.title = t ∧
        e.timestamp = n.timestamp ∧ e.path = n.path ∧
        read_note_content fs n.path = some e.content ∧
        (∀ m ∈ get_all_notes fs, m.project = p → m.title = t →
          strLt n.timestamp m.timestamp = false)) := by
  obtain ⟨hnd, hkeys, hsome, _⟩ := latestNotes_spec (get_all_notes fs)
  have hreb2 : (rebuild_index fs).2
      = (latestNotes (get_all_notes fs)).foldl (fun idx kn => indexInsert idx kn.1.1 kn.1.2
          ⟨(read_note_content fs kn.2.path).getD [], kn.2.timestamp, kn.2.path⟩) [] := rfl
  have hreb1 : (rebuild_index fs).1 = (latestNotes (get_all_notes fs)).length := rfl
  refine ⟨?_, ?_, ?_⟩
  · rw [hreb1]
    have hlen : (latestNotes (get_all_notes fs)).length
        = ((latestNotes (get_all_notes fs)).map (fun kn => kn.1)).length :=
      (List.length_map _ _).symm
    rw [hlen]
    have hperm : ((latestNotes (get_all_notes fs)).map (fun kn => kn.1)).Perm
        (((get_all_notes fs).map noteKey).dedup) := by
      rw [List.perm_ext_iff_of_nodup hnd (List.nodup_dedup _)]
      intro k
      rw [List.mem_dedup]
      exact hkeys k
    exact hperm.length_eq
  · intro p t
    rw [hreb2, foldl_indexInsert_lookup2 _ p t _ [] hnd]
    constructor
    · intro hs
      cases hfind : (latestNotes (get_all_notes fs)).find? (fun kn => kn.1 == (p, t)) with
      | none =>
        rw [hfind] at hs
        rw [show lookup2 [] p t = none from rfl] at hs
        simp at hs
      | some kn =>
        have hkn : kn.1 = (p, t) := by simpa using List.find?_some hfind
        have hmem := List.mem_of_find?_eq_some hfind
        have hkmem : (p, t) ∈ (get_all_notes fs).map noteKey := by
          apply (hkeys (p, t)).mp
          have hm : kn.1 ∈ (latestNotes (get_all_notes fs)).map (fun kn => kn.1) :=
            List.mem_map_of_mem _ hmem
          rwa [hkn] at hm
        rcases List.mem_map.mp hkmem with ⟨n, hn, hkey⟩
        have hpt := Prod.ext_iff.mp hkey
        exact ⟨n, hn, hpt.1, hpt.2⟩
    · rintro ⟨n, hn, hp, ht⟩
      have hkmem : (p, t) ∈ (latestNotes (get_all_notes fs)).map (fun kn => kn.1) :=
        (hkeys (p, t)).mpr (List.mem_map.mpr ⟨n, hn, by simp [noteKey, hp, ht]⟩)
      rcases List.mem_map.mp hkmem with ⟨kn, hkn, hk1⟩
      have hfs : ((latestNotes (get_all_notes fs)).find? (fun kn => kn.1 == (p, t))).isSome :=
        List.find?_isSome.mpr ⟨kn, hkn, by simp [hk1]⟩
      rcases Option.isSome_iff_exists.mp hfs with ⟨kn', hkn'⟩
      rw [hkn']
      rfl
  · intro p t e he
    rw [hreb2, foldl_indexInsert_lookup2 _ p t _ [] hnd] at he
    cases hfind : (latestNotes (get_all_notes fs)).find? (fun kn => kn.1 == (p, t)) with
    | none =>
      rw [hfind] at he
      rw [show lookup2 [] p t = none from rfl] at he
      exact Option.noConfusion he
    | some kn =>
      rw [hfind] at he
      simp only [] at he
      have hkn1 : kn.1 = (p, t) := by simpa using List.find?_some hfind
      have hll : latestLookup (latestNotes (get_all_notes fs)) (p, t) = some kn.2 := by
        unfold latestLookup
        rw [hfind]
        rfl
      obtain ⟨hmem, hkey, hmax⟩ := hsome (p, t) kn.2 hll
      have hnp : kn.2.project = p := congrArg Prod.fst hkey
      have hnt : kn.2.title = t := congrArg Prod.snd hkey
      have hrd := read_note_content_isSome fs kn.2 hmem
      rcases Option.isSome_iff_exists.mp hrd with ⟨c₀, hc₀⟩
      have hee : e = ⟨(read_note_content fs kn.2.path).getD [], kn.2.timestamp, kn.2.path⟩ :=
        (Option.some_inj.mp he).symm
      refine ⟨kn.2, hmem, hnp, hnt, ?_, ?_, ?_, ?_⟩
      · rw [hee]
      · rw [hee]
      · rw [hee]
        show read_note_content fs kn.2.path = some ((read_note_content fs kn.2.path).getD [])
        rw [hc₀]
        rfl
      · intro m hm hmp hmt
        exact hmax m hm (by simp [noteKey, hmp, hmt])

/-- C6 witness: in the two-note state the index maps `("P", "Note")` to the
newer of its two versions and reports two indexed notes. -/
theorem rebuild_index_exact_witness :
    (rebuild_index fsTwoNotes).1 = 2 ∧
    ∃ n ∈ get_all_notes fsTwoNotes,
      n.project = chars "P" ∧ n.title = chars "Note" ∧
      (chars "2025:01:02T11:30:00") = n.timestamp ∧
      (chars "P", chars "Note_2025-01-02T11-30-00.md") = n.path ∧
      read_note_content fsTwoNotes n.path = some (chars "v2") ∧
      (∀ m ∈ get_all_notes fsTwoNotes, m.project = chars "P" → m.title = chars "Note" →
        strLt n.timestamp m.timestamp = false) := by
  have h := rebuild_index_exact fsTwoNotes
  constructor
  · rw [h.1]
    decide
  · have h3 := h.2.2 (chars "P") (chars "Note")
      ⟨chars "v2", chars "2025:01:02T11:30:00",
       (chars "P", chars "Note_2025-01-02T11-30-00.md")⟩ (by decide)
    rcases h3 with ⟨n, hn, hp, ht, hts, hpath, hread, hmax⟩
    exact ⟨n, hn, hp, ht, hts, hpath, hread, hmax⟩

end NotesMCP
